import Mathlib

/-!
Verification of the NewsAggregator backend (Rust) against its
natural-language specification.

Shallow embedding conventions:
* Text is represented as `List Nat` of Unicode scalar values
  (`ustr` converts a Lean string literal).  Rust `char` classification
  functions are embedded as predicates over the scalar value.
* Rust `f32` threshold comparisons on Jaccard similarity and on the
  ASCII-letter ratio are embedded as exact rational comparisons
  (`den * lhsNum ≥ num * lhsDen`).  For the operand sizes reachable here
  (set cardinalities and letter counts far below 2^20) the correctly
  rounded `f32` comparison agrees exactly with the rational one, because
  the spacing of `f32` values near 0.6 and 0.9 is below any achievable
  nonzero rational difference.
* Database rows, provenance records and network results are explicit
  data; network and LLM outcomes are supplied by oracle arguments.
-/

namespace NewsAgg

/-- Unicode scalar values of a Lean string literal (used for concrete
inputs in witnesses and counterexamples). -/
def ustr (s : String) : List Nat :=
  s.data.map Char.toNat

/-! ## Character model

Embeddings of the Rust `char` classification methods used by
`util/title.rs` and `fetcher/mod.rs`.  `charIsWhitespace` is the complete
Unicode `White_Space` set (what `char::is_whitespace` tests).
`charIsAlphanumeric` embeds `char::is_alphanumeric` restricted to the
Basic Latin, Latin-1 and CJK blocks exercised in this development; the
theorems below depend only on the pipeline structure, not on the exact
extent of the table. -/

def charIsWhitespace (c : Nat) : Bool :=
  c == 9 || c == 10 || c == 11 || c == 12 || c == 13 || c == 32 ||
  c == 0x85 || c == 0xA0 || c == 0x1680 ||
  (0x2000 ≤ c && c ≤ 0x200A) ||
  c == 0x2028 || c == 0x2029 || c == 0x202F || c == 0x205F || c == 0x3000

def charIsCjk (c : Nat) : Bool :=
  (0x4E00 ≤ c && c ≤ 0x9FFF) ||
  (0x3400 ≤ c && c ≤ 0x4DBF) ||
  (0x20000 ≤ c && c ≤ 0x2A6DF) ||
  (0x2A700 ≤ c && c ≤ 0x2B73F) ||
  (0x2B740 ≤ c && c ≤ 0x2B81F) ||
  (0x2B820 ≤ c && c ≤ 0x2CEAF) ||
  (0xF900 ≤ c && c ≤ 0xFAFF) ||
  (0x2F800 ≤ c && c ≤ 0x2FA1F)

def charIsAsciiAlphabetic (c : Nat) : Bool :=
  (65 ≤ c && c ≤ 90) || (97 ≤ c && c ≤ 122)

def charIsAsciiDigit (c : Nat) : Bool :=
  48 ≤ c && c ≤ 57

def charIsAlphabetic (c : Nat) : Bool :=
  charIsAsciiAlphabetic c ||
  c == 0xAA || c == 0xB5 || c == 0xBA ||
  (0xC0 ≤ c && c ≤ 0xD6) || (0xD8 ≤ c && c ≤ 0xF6) ||
  (0xF8 ≤ c && c ≤ 0xFF) ||
  charIsCjk c

def charIsAlphanumeric (c : Nat) : Bool :=
  charIsAlphabetic c || charIsAsciiDigit c

/-- `char::to_lowercase`, which is a single-character mapping on every
code point in the table above (ASCII and Latin-1 uppercase letters map
down by 32; everything else in range is already caseless or lowercase). -/
def charToLower (c : Nat) : Nat :=
  if 65 ≤ c && c ≤ 90 then c + 32
  else if (0xC0 ≤ c && c ≤ 0xD6) || (0xD8 ≤ c && c ≤ 0xDE) then c + 32
  else c

/-- Number of bytes of the UTF-8 encoding of a scalar value
(Rust `str::len` counts these). -/
def charUtf8Len (c : Nat) : Nat :=
  if c < 0x80 then 1
  else if c < 0x800 then 2
  else if c < 0x10000 then 3
  else 4

def utf8Len (l : List Nat) : Nat :=
  (l.map charUtf8Len).sum

/-! ## Title signature (`util/title.rs`) -/

/-- The scan loop of `normalize_title_for_comparison`: alphanumeric
characters are lowercased and pushed, every other character (the
`is_whitespace` branch and the final `else` branch of the source behave
identically) emits a single space unless one is already pending. -/
def normalizeScan : List Nat → Bool → List Nat
  | [], _ => []
  | c :: rest, spacePending =>
    if charIsAlphanumeric c then
      charToLower c :: normalizeScan rest false
    else if spacePending then
      normalizeScan rest spacePending
    else
      32 :: normalizeScan rest true

/-- `str::split_whitespace`: maximal runs of non-whitespace characters. -/
def wordsAux : List Nat → List Nat → List (List Nat)
  | [], acc => if acc.isEmpty then [] else [acc.reverse]
  | c :: rest, acc =>
    if charIsWhitespace c then
      if acc.isEmpty then wordsAux rest [] else acc.reverse :: wordsAux rest []
    else
      wordsAux rest (c :: acc)

def splitWhitespace (l : List Nat) : List (List Nat) :=
  wordsAux l []

/-- `Vec::join(" ")`: concatenate words with a single space between. -/
def joinWords : List (List Nat) → List Nat
  | [] => []
  | [w] => w
  | w :: rest₁ :: rest₂ => w ++ 32 :: joinWords (rest₁ :: rest₂)

/-- `normalize_title_for_comparison`: scan, then
`split_whitespace().collect::<Vec<_>>().join(" ")`. -/
def normalizeTitleForComparison (l : List Nat) : List Nat :=
  joinWords (splitWhitespace (normalizeScan l false))

/-- `prepare_title_signature`: the normalized title together with the
`BTreeSet` of its whitespace tokens of byte length ≥ 2. -/
def prepareTitleSignature (l : List Nat) : List Nat × Finset (List Nat) :=
  (normalizeTitleForComparison l,
   ((splitWhitespace (normalizeTitleForComparison l)).filter
     (fun t => 2 ≤ utf8Len t)).toFinset)

def titleTokens (l : List Nat) : Finset (List Nat) :=
  (prepareTitleSignature l).2

/-- `jaccard_similarity` as an exact rational (0 when either side is
empty, matching the source's early return). -/
def jaccardRat (a b : Finset (List Nat)) : ℚ :=
  if a = ∅ ∨ b = ∅ then 0
  else ((a ∩ b).card : ℚ) / ((a ∪ b).card : ℚ)

/-- The `f32` comparison `jaccard_similarity(a, b) >= num/den`, embedded
exactly (see the header comment on float thresholds). -/
def jaccardGe (a b : Finset (List Nat)) (num den : Nat) : Bool :=
  !(a.card == 0) && !(b.card == 0) &&
  decide (num * (a ∪ b).card ≤ den * (a ∩ b).card)

/-! ## Reference title signature (spec §3, claim C9)

The spec derives the signature by: Unicode-lowercase each letter, replace
any non-alphanumeric character with a single space, collapse runs of
whitespace, split on whitespace, retain the long-enough tokens.
Collapsing runs of whitespace and then splitting on whitespace yields the
same tokens as splitting directly, so the reference token list is the
whitespace split of the per-character replacement. -/

def refReplaceChar (c : Nat) : Nat :=
  if charIsAlphanumeric c then charToLower c else 32

def refReplace (l : List Nat) : List Nat :=
  l.map refReplaceChar

def refTokenList (l : List Nat) : List (List Nat) :=
  splitWhitespace (refReplace l)

def refNormalizedTitle (l : List Nat) : List Nat :=
  joinWords (refTokenList l)

/-- The reference signature exactly as the claim words it: tokens of
length ≥ 2 *characters*. -/
def refSignatureChars (l : List Nat) : List Nat × Finset (List Nat) :=
  (refNormalizedTitle l,
   ((refTokenList l).filter (fun t => 2 ≤ t.length)).toFinset)

/-- The reference signature with the length measured in UTF-8 bytes, as
`token.len() >= 2` does in the source. -/
def refSignatureBytes (l : List Nat) : List Nat × Finset (List Nat) :=
  (refNormalizedTitle l,
   ((refTokenList l).filter (fun t => 2 ≤ utf8Len t)).toFinset)

theorem charIsWhitespace_spec (c : Nat) :
    charIsWhitespace c = true ↔
      (c = 9 ∨ c = 10 ∨ c = 11 ∨ c = 12 ∨ c = 13 ∨ c = 32 ∨
       c = 0x85 ∨ c = 0xA0 ∨ c = 0x1680 ∨ (0x2000 ≤ c ∧ c ≤ 0x200A) ∨
       c = 0x2028 ∨ c = 0x2029 ∨ c = 0x202F ∨ c = 0x205F ∨ c = 0x3000) := by
  simp [charIsWhitespace, Bool.or_eq_true, Bool.and_eq_true, or_assoc]

theorem charIsAlphanumeric_ranges (c : Nat) (h : charIsAlphanumeric c = true) :
    (48 ≤ c ∧ c ≤ 57) ∨ (65 ≤ c ∧ c ≤ 90) ∨ (97 ≤ c ∧ c ≤ 122) ∨
    c = 0xAA ∨ c = 0xB5 ∨ c = 0xBA ∨
    (0xC0 ≤ c ∧ c ≤ 0xD6) ∨ (0xD8 ≤ c ∧ c ≤ 0xF6) ∨ (0xF8 ≤ c ∧ c ≤ 0xFF) ∨
    (0x3400 ≤ c ∧ c ≤ 0x4DBF) ∨ (0x4E00 ≤ c ∧ c ≤ 0x9FFF) ∨
    (0xF900 ≤ c ∧ c ≤ 0xFAFF) ∨ 0x20000 ≤ c := by
  simp only [charIsAlphanumeric, charIsAlphabetic, charIsAsciiAlphabetic,
    charIsAsciiDigit, charIsCjk, Bool.or_eq_true, Bool.and_eq_true,
    beq_iff_eq, decide_eq_true_eq] at h
  omega

/-- Lowercasing an alphanumeric character never produces whitespace. -/
theorem lower_not_ws (c : Nat) (h : charIsAlphanumeric c = true) :
    charIsWhitespace (charToLower c) = false := by
  have hc := charIsAlphanumeric_ranges c h
  rw [Bool.eq_false_iff]
  intro hws
  rw [charIsWhitespace_spec] at hws
  unfold charToLower at hws
  split at hws
  case isTrue hr =>
    simp only [Bool.and_eq_true, decide_eq_true_eq] at hr
    omega
  case isFalse =>
    split at hws
    case isTrue hr =>
      simp only [Bool.or_eq_true, Bool.and_eq_true, decide_eq_true_eq] at hr
      omega
    case isFalse => omega

/-- The scan loop of the source produces the same whitespace split as the
reference per-character replacement. -/
theorem wordsAux_normalizeScan (l : List Nat) :
    ∀ (sp : Bool) (acc : List Nat), (sp = true → acc = []) →
      wordsAux (normalizeScan l sp) acc = wordsAux (refReplace l) acc := by
  induction l with
  | nil => intro sp acc _; rfl
  | cons c rest ih =>
    intro sp acc hsp
    by_cases halnum : charIsAlphanumeric c = true
    · have hws := lower_not_ws c halnum
      simp only [normalizeScan, refReplace, List.map_cons, halnum, if_pos,
        refReplaceChar, wordsAux, hws, Bool.false_eq_true, if_false]
      exact ih false (charToLower c :: acc) (by simp)
    · rw [Bool.not_eq_true] at halnum
      cases sp with
      | true =>
        have hacc := hsp rfl
        subst hacc
        simp only [normalizeScan, halnum, Bool.false_eq_true, if_false,
          if_true, refReplace, List.map_cons, refReplaceChar, wordsAux,
          List.isEmpty_nil]
        have h32 : charIsWhitespace 32 = true := by decide
        rw [h32]
        simp only [if_true, List.isEmpty_nil]
        exact ih true [] (fun _ => rfl)
      | false =>
        simp only [normalizeScan, halnum, Bool.false_eq_true, if_false,
          refReplace, List.map_cons, refReplaceChar, wordsAux]
        have h32 : charIsWhitespace 32 = true := by decide
        rw [h32]
        simp only [if_true]
        cases acc with
        | nil =>
          simp only [List.isEmpty_nil, if_true]
          exact ih true [] (fun _ => rfl)
        | cons a as =>
          simp only [List.isEmpty_cons, Bool.false_eq_true, if_false]
          rw [ih true [] (fun _ => rfl)]
          rfl

theorem splitWhitespace_scan (l : List Nat) :
    splitWhitespace (normalizeScan l false) = refTokenList l :=
  wordsAux_normalizeScan l false [] (by simp)

/-- The normalized title of the source equals the reference normalized
title. -/
theorem normalizeTitle_eq_ref (l : List Nat) :
    normalizeTitleForComparison l = refNormalizedTitle l := by
  unfold normalizeTitleForComparison refNormalizedTitle
  rw [splitWhitespace_scan]

/-- Every word produced by `wordsAux` is nonempty and whitespace-free
(given a whitespace-free accumulator). -/
theorem wordsAux_wf (l : List Nat) :
    ∀ (acc : List Nat), (∀ c ∈ acc, charIsWhitespace c = false) →
      ∀ w ∈ wordsAux l acc,
        w ≠ [] ∧ ∀ c ∈ w, charIsWhitespace c = false := by
  induction l with
  | nil =>
    intro acc hacc w hw
    unfold wordsAux at hw
    split at hw
    · simp at hw
    · rename_i hne
      simp only [List.mem_singleton] at hw
      subst hw
      constructor
      · simp only [ne_eq, List.reverse_eq_nil_iff]
        intro h; rw [h] at hne; simp at hne
      · intro c hc; exact hacc c (List.mem_reverse.mp hc)
  | cons c rest ih =>
    intro acc hacc w hw
    unfold wordsAux at hw
    split at hw
    · split at hw
      · exact ih [] (by simp) w hw
      · rename_i hne
        simp only [List.mem_cons] at hw
        rcases hw with hw | hw
        · subst hw
          constructor
          · simp only [ne_eq, List.reverse_eq_nil_iff]
            intro h; rw [h] at hne; simp at hne
          · intro d hd; exact hacc d (List.mem_reverse.mp hd)
        · exact ih [] (by simp) w hw
    · rename_i hcws
      rw [Bool.not_eq_true] at hcws
      refine ih (c :: acc) ?_ w hw
      intro d hd
      rcases List.mem_cons.mp hd with hd | hd
      · subst hd; exact hcws
      · exact hacc d hd

/-- Splitting the space-joined word list recovers the word list, provided
the words are nonempty and whitespace-free. -/
theorem splitWhitespace_joinWords (ws : List (List Nat))
    (h : ∀ w ∈ ws, w ≠ [] ∧ ∀ c ∈ w, charIsWhitespace c = false) :
    splitWhitespace (joinWords ws) = ws := by
  have key : ∀ (w l : List Nat) (acc : List Nat),
      (∀ c ∈ w, charIsWhitespace c = false) →
      wordsAux (w ++ l) acc = wordsAux l (w.reverse ++ acc) := by
    intro w
    induction w with
    | nil => intro l acc _; simp
    | cons c cs ihw =>
      intro l acc hw
      have hc : charIsWhitespace c = false := hw c (List.mem_cons_self c cs)
      simp only [List.cons_append, wordsAux, hc, Bool.false_eq_true, if_false,
        List.reverse_cons, List.append_assoc, List.singleton_append]
      exact ihw l (c :: acc) (fun d hd => hw d (List.mem_cons_of_mem c hd))
  induction ws with
  | nil => rfl
  | cons w rest ihws =>
    have hw := h w (List.mem_cons_self w rest)
    cases rest with
    | nil =>
      have hkey := key w [] [] hw.2
      simp only [List.append_nil] at hkey
      show wordsAux (joinWords [w]) [] = [w]
      unfold joinWords
      rw [hkey]
      unfold wordsAux
      rw [if_neg (by simp [hw.1])]
      simp
    | cons r rs =>
      show wordsAux (w ++ 32 :: joinWords (r :: rs)) [] = w :: r :: rs
      rw [key w _ [] hw.2]
      unfold wordsAux
      have h32 : charIsWhitespace 32 = true := by decide
      rw [h32]
      simp only [if_true, List.append_nil]
      rw [if_neg (by simp [hw.1])]
      simp only [List.reverse_reverse]
      have hrest : wordsAux (joinWords (r :: rs)) [] = r :: rs :=
        ihws (fun x hx => h x (List.mem_cons_of_mem w hx))
      rw [hrest]

theorem refTokenList_wf (l : List Nat) :
    ∀ w ∈ refTokenList l, w ≠ [] ∧ ∀ c ∈ w, charIsWhitespace c = false :=
  wordsAux_wf (refReplace l) [] (by simp)

/-- The tokens of the source signature are the long reference tokens
(byte-length measure). -/
theorem prepareTitleSignature_eq_refBytes (l : List Nat) :
    prepareTitleSignature l = refSignatureBytes l := by
  unfold prepareTitleSignature refSignatureBytes
  rw [normalizeTitle_eq_ref]
  unfold refNormalizedTitle
  rw [splitWhitespace_joinWords (refTokenList l) (refTokenList_wf l)]

/-- C9 (counterexample): the claim measures token length in characters,
but `prepare_title_signature` filters on `token.len()`, which counts
UTF-8 bytes.  On the title "é ab" the single-character token "é" is two
bytes long, so the source keeps it while the character-count reference
drops it. -/
theorem c9_title_signature_counterexample :
    prepareTitleSignature (ustr "é ab") ≠ refSignatureChars (ustr "é ab") := by
  decide

/-- C9 (amended): for every input, the title signature equals the
reference definition with token length measured in UTF-8 bytes
(Unicode-lowercase each letter, replace any non-alphanumeric character
with a single space, collapse runs of whitespace, split on whitespace,
retain the tokens of byte length ≥ 2); the function is deterministic (it
is a pure function of the scalar sequence) and case-insensitive on the
spec's example: sig("Foo Bar") = sig("foo  bar"). -/
theorem c9_title_signature_amended :
    (∀ l, prepareTitleSignature l = refSignatureBytes l) ∧
    prepareTitleSignature (ustr "Foo Bar") =
      prepareTitleSignature (ustr "foo  bar") := by
  refine ⟨prepareTitleSignature_eq_refBytes, ?_⟩
  decide

/-! ## Data model of the per-feed processor (`fetcher/mod.rs`)

Rows and records mirror `repo/feeds.rs`, `repo/articles.rs` and
`repo/article_sources.rs`; timestamps are abstract integers. -/

structure DueFeedRow where
  id : Int
  url : List Nat
  sourceDomain : List Nat
  lastEtag : Option (List Nat)
  filterCondition : Option (List Nat)
deriving DecidableEq

structure NewArticle where
  feedId : Option Int
  title : List Nat
  url : List Nat
  description : Option (List Nat)
  language : Option (List Nat)
  sourceDomain : List Nat
  publishedAt : Int
deriving DecidableEq

structure ArticleSummary where
  articleId : Int
  title : List Nat
  sourceDomain : List Nat
  url : List Nat
  description : Option (List Nat)
  publishedAt : Int
deriving DecidableEq

structure CandidateArticle where
  tokens : Finset (List Nat)
  summary : ArticleSummary
deriving DecidableEq

structure ArticleSourceRecord where
  articleId : Int
  feedId : Option Int
  sourceName : Option (List Nat)
  sourceUrl : List Nat
  publishedAt : Int
  decision : Option (List Nat)
  confidence : Option ℚ
deriving DecidableEq

/-- `record_article_source`: the provenance row built for the feed and
article (its insertion is `ON CONFLICT DO NOTHING`, out of scope here). -/
def recordArticleSource (feed : DueFeedRow) (article : NewArticle)
    (articleId : Int) (decision : Option (List Nat))
    (confidence : Option ℚ) : ArticleSourceRecord :=
  { articleId := articleId
    feedId := some feed.id
    sourceName := some feed.sourceDomain
    sourceUrl := article.url
    publishedAt := article.publishedAt
    decision := decision
    confidence := confidence }

inductive TranslatorProvider where
  | deepseek
  | baidu
  | ollama
deriving DecidableEq

/-- The mutable state of `TranslationEngine` (`util/translator.rs`), with
each client reduced to its presence (`Option<Arc<…>>` → `Bool`). -/
structure TranslationState where
  provider : TranslatorProvider
  baiduClient : Bool
  baiduVerified : Bool
  deepseekClient : Bool
  deepseekVerified : Bool
  ollamaClient : Bool
  ollamaVerified : Bool
  translateDescriptions : Bool
deriving DecidableEq

def clientPresent (s : TranslationState) : TranslatorProvider → Bool
  | .baidu => s.baiduClient
  | .deepseek => s.deepseekClient
  | .ollama => s.ollamaClient

def providerVerified (s : TranslationState) : TranslatorProvider → Bool
  | .baidu => s.baiduVerified
  | .deepseek => s.deepseekVerified
  | .ollama => s.ollamaVerified

/-- `provider_available`: client present and verified. -/
def providerAvailable (s : TranslationState) (p : TranslatorProvider) : Bool :=
  clientPresent s p && providerVerified s p

/-- The provider selection of the ai-dedup branch
(`fetcher/mod.rs:805-823`): the configured `ai_dedup.provider` string is
matched against "deepseek"/"ollama" and the corresponding
`deepseek_client()` / `ollama_client()` accessor is consulted — these
accessors return the client whenever it is configured, without looking at
the `verified` flag. -/
def aiProviderSelect (s : TranslationState)
    (providerSetting : Option (List Nat)) : Option TranslatorProvider :=
  match providerSetting with
  | none => none
  | some name =>
    if name = ustr "deepseek" then
      if s.deepseekClient then some .deepseek else none
    else if name = ustr "ollama" then
      if s.ollamaClient then some .ollama else none
    else none

/-- Outcome of one `judge_similarity` invocation; `error` covers network
errors, non-success statuses, unparsable responses and the 10-second hard
timeout wrapped around the call. -/
inductive JudgeOutcome where
  | ok (isDuplicate : Bool) (reason : Option (List Nat)) (confidence : Option ℚ)
  | error
deriving DecidableEq

/-- Trace entry for one LLM similarity call; `verified` is a ghost field
recording the used provider's verification flag at call time (claim C5). -/
structure JudgeCall where
  candIdx : Nat
  provider : TranslatorProvider
  verified : Bool
deriving DecidableEq

structure ScanResult where
  dropRecord : Option ArticleSourceRecord
  calls : List JudgeCall
deriving DecidableEq

def consCall (c : JudgeCall) (r : ScanResult) : ScanResult :=
  ⟨r.dropRecord, c :: r.calls⟩

/-- The historical-dedup scan of `process_feed_locked`
(`fetcher/mod.rs:769-951`).  `judge n` is the outcome of the (n+1)-th LLM
call for this entry (`deepseek_checks` counts them).  Per candidate, in
order: a strict Jaccard hit (≥ 0.9) records provenance
`recent_jaccard`/similarity and stops; otherwise, when ai-dedup is
enabled and similarity ≥ 0.6, a provider is selected — if none, the
candidate is skipped; if the check budget (3) is exhausted the whole scan
`break`s; otherwise `judge_similarity` runs: a duplicate verdict records
provenance with the judgment's reason (default "deepseek_duplicate") and
its confidence and stops, anything else moves to the next candidate. -/
def scanHistorical (feed : DueFeedRow) (article : NewArticle)
    (tokens : Finset (List Nat)) (aiEnabled : Bool)
    (providerSetting : Option (List Nat)) (st : TranslationState)
    (judge : Nat → JudgeOutcome) :
    List CandidateArticle → Nat → Nat → ScanResult
  | [], _, _ => ⟨none, []⟩
  | cand :: rest, idx, checks =>
    if jaccardGe tokens cand.tokens 9 10 then
      ⟨some (recordArticleSource feed article cand.summary.articleId
          (some (ustr "recent_jaccard"))
          (some (jaccardRat tokens cand.tokens))), []⟩
    else if aiEnabled && jaccardGe tokens cand.tokens 6 10 then
      match aiProviderSelect st providerSetting with
      | none =>
        scanHistorical feed article tokens aiEnabled providerSetting st judge
          rest (idx + 1) checks
      | some p =>
        if 3 ≤ checks then ⟨none, []⟩
        else
          match judge checks with
          | .ok true reason conf =>
            ⟨some (recordArticleSource feed article cand.summary.articleId
                (some (reason.getD (ustr "deepseek_duplicate"))) conf),
             [⟨idx, p, providerVerified st p⟩]⟩
          | .ok false _ _ =>
            consCall ⟨idx, p, providerVerified st p⟩
              (scanHistorical feed article tokens aiEnabled providerSetting
                st judge rest (idx + 1) (checks + 1))
          | .error =>
            consCall ⟨idx, p, providerVerified st p⟩
              (scanHistorical feed article tokens aiEnabled providerSetting
                st judge rest (idx + 1) (checks + 1))
    else
      scanHistorical feed article tokens aiEnabled providerSetting st judge
        rest (idx + 1) checks

/-- The intra-batch duplicate test (`fetcher/mod.rs:733-757`): strict
Jaccard against each previously accepted signature, or exact equality of
normalized titles. -/
def intraBatchDuplicate (tokens : Finset (List Nat)) (normalized : List Nat)
    (seen : List (Finset (List Nat) × List Nat)) : Bool :=
  seen.any (fun s => jaccardGe tokens s.1 9 10 || normalized == s.2)

inductive EntryOutcome where
  | emptyTokens
  | intraDuplicate
  | historicalDuplicate (record : ArticleSourceRecord)
  | accepted
deriving DecidableEq

/-- The dedup portion of the per-entry pipeline (after conversion,
description normalization and translation): signature, empty-token skip,
intra-batch dedup (no provenance), then the historical scan. -/
def processEntry (feed : DueFeedRow) (article : NewArticle)
    (aiEnabled : Bool) (providerSetting : Option (List Nat))
    (st : TranslationState) (judge : Nat → JudgeOutcome)
    (seen : List (Finset (List Nat) × List Nat))
    (cands : List CandidateArticle) : EntryOutcome × List JudgeCall :=
  let sig := prepareTitleSignature article.title
  if sig.2 = ∅ then (.emptyTokens, [])
  else if intraBatchDuplicate sig.2 sig.1 seen then (.intraDuplicate, [])
  else
    match scanHistorical feed article sig.2 aiEnabled providerSetting st
      judge cands 0 0 with
    | ⟨some rec, calls⟩ => (.historicalDuplicate rec, calls)
    | ⟨none, calls⟩ => (.accepted, calls)

structure BatchState where
  seen : List (Finset (List Nat) × List Nat)
  accepted : List NewArticle
  provenance : List ArticleSourceRecord
deriving DecidableEq

/-- Folding the per-entry pipeline over a feed batch
(`fetcher/mod.rs:586-995`): accepted entries push their recomputed
signature onto `seen_signatures` and join the insert batch; historical
duplicates contribute their provenance row; intra-batch duplicates and
empty-token entries contribute nothing.  `judge i` is the LLM oracle for
the entry at position `i`. -/
def processBatchAux (feed : DueFeedRow) (aiEnabled : Bool)
    (providerSetting : Option (List Nat)) (st : TranslationState)
    (judge : Nat → Nat → JudgeOutcome) (cands : List CandidateArticle) :
    List NewArticle → Nat → BatchState → BatchState
  | [], _, b => b
  | a :: rest, i, b =>
    match (processEntry feed a aiEnabled providerSetting st (judge i)
        b.seen cands).1 with
    | .historicalDuplicate rec =>
      processBatchAux feed aiEnabled providerSetting st judge cands rest
        (i + 1) { b with provenance := b.provenance ++ [rec] }
    | .accepted =>
      processBatchAux feed aiEnabled providerSetting st judge cands rest
        (i + 1)
        { b with
          seen := b.seen ++ [((prepareTitleSignature a.title).2,
            (prepareTitleSignature a.title).1)]
          accepted := b.accepted ++ [a] }
    | _ =>
      processBatchAux feed aiEnabled providerSetting st judge cands rest
        (i + 1) b

def processBatch (feed : DueFeedRow) (aiEnabled : Bool)
    (providerSetting : Option (List Nat)) (st : TranslationState)
    (judge : Nat → Nat → JudgeOutcome) (cands : List CandidateArticle)
    (entries : List NewArticle) : BatchState :=
  processBatchAux feed aiEnabled providerSetting st judge cands entries 0
    ⟨[], [], []⟩

theorem jaccardGe_symm (a b : Finset (List Nat)) (n d : Nat) :
    jaccardGe a b n d = jaccardGe b a n d := by
  unfold jaccardGe
  rw [Finset.inter_comm, Finset.union_comm]
  cases a.card == 0 <;> cases b.card == 0 <;> simp

theorem jaccardGe_nonempty {a b : Finset (List Nat)} {n d : Nat}
    (h : jaccardGe a b n d = true) : a ≠ ∅ ∧ b ≠ ∅ := by
  unfold jaccardGe at h
  simp only [Bool.and_eq_true, Bool.not_eq_eq_eq_not, Bool.not_true,
    beq_eq_false_iff_ne, ne_eq] at h
  exact ⟨fun ha => h.1.1 (by simp [ha]), fun hb => h.1.2 (by simp [hb])⟩

/-- An entry whose signature matches `seen` intra-batch is dispatched to
the duplicate branch with no provenance and no LLM calls. -/
theorem processEntry_intraDuplicate (feed : DueFeedRow) (article : NewArticle)
    (aiEnabled : Bool) (providerSetting : Option (List Nat))
    (st : TranslationState) (judge : Nat → JudgeOutcome)
    (seen : List (Finset (List Nat) × List Nat)) (cands : List CandidateArticle)
    (htok : (prepareTitleSignature article.title).2 ≠ ∅)
    (hdup : intraBatchDuplicate (prepareTitleSignature article.title).2
      (prepareTitleSignature article.title).1 seen = true) :
    processEntry feed article aiEnabled providerSetting st judge seen cands =
      (.intraDuplicate, []) := by
  unfold processEntry
  rw [if_neg htok, if_pos hdup]

/-- If the per-entry pipeline accepts, the intra-batch test was negative. -/
theorem processEntry_accepted_not_intra (feed : DueFeedRow)
    (article : NewArticle) (aiEnabled : Bool)
    (providerSetting : Option (List Nat)) (st : TranslationState)
    (judge : Nat → JudgeOutcome) (seen : List (Finset (List Nat) × List Nat))
    (cands : List CandidateArticle)
    (h : (processEntry feed article aiEnabled providerSetting st judge seen
      cands).1 = .accepted) :
    intraBatchDuplicate (prepareTitleSignature article.title).2
      (prepareTitleSignature article.title).1 seen = false := by
  unfold processEntry at h
  by_cases h1 : (prepareTitleSignature article.title).2 = ∅
  · rw [if_pos h1] at h
    exact absurd h (by simp)
  · rw [if_neg h1] at h
    by_cases h2 : intraBatchDuplicate (prepareTitleSignature article.title).2
        (prepareTitleSignature article.title).1 seen = true
    · rw [if_pos h2] at h
      exact absurd h (by simp)
    · exact Bool.not_eq_true _ |>.mp h2

/-- A negative intra-batch test means no strict Jaccard match and no
normalized-title match against any seen signature. -/
theorem intraBatchDuplicate_false {tokens : Finset (List Nat)}
    {normalized : List Nat} {seen : List (Finset (List Nat) × List Nat)}
    (h : intraBatchDuplicate tokens normalized seen = false) :
    ∀ s ∈ seen, jaccardGe tokens s.1 9 10 = false ∧ normalized ≠ s.2 := by
  intro s hs
  unfold intraBatchDuplicate at h
  rw [List.any_eq_false] at h
  have h2 := h s hs
  simp only [Bool.or_eq_true, beq_iff_eq, not_or] at h2
  exact ⟨Bool.eq_false_iff.mpr h2.1, h2.2⟩

def sigPair (a : NewArticle) : Finset (List Nat) × List Nat :=
  ((prepareTitleSignature a.title).2, (prepareTitleSignature a.title).1)

def batchDissimilar (x y : NewArticle) : Prop :=
  jaccardGe (titleTokens x.title) (titleTokens y.title) 9 10 = false

/-- Invariant of the batch fold: every accepted entry's signature sits in
`seen_signatures`, and the accepted entries are pairwise below the strict
Jaccard threshold. -/
theorem processBatchAux_pairwise (feed : DueFeedRow) (aiEnabled : Bool)
    (providerSetting : Option (List Nat)) (st : TranslationState)
    (judge : Nat → Nat → JudgeOutcome) (cands : List CandidateArticle) :
    ∀ (entries : List NewArticle) (i : Nat) (b : BatchState),
      (∀ a ∈ b.accepted, sigPair a ∈ b.seen) →
      b.accepted.Pairwise batchDissimilar →
      (∀ a ∈ (processBatchAux feed aiEnabled providerSetting st judge cands
          entries i b).accepted,
        sigPair a ∈ (processBatchAux feed aiEnabled providerSetting st judge
          cands entries i b).seen) ∧
      (processBatchAux feed aiEnabled providerSetting st judge cands entries
        i b).accepted.Pairwise batchDissimilar := by
  intro entries
  induction entries with
  | nil => intro i b hseen hpair; exact ⟨hseen, hpair⟩
  | cons a rest ih =>
    intro i b hseen hpair
    unfold processBatchAux
    cases hout : (processEntry feed a aiEnabled providerSetting st (judge i)
        b.seen cands).1 with
    | emptyTokens => exact ih (i + 1) b hseen hpair
    | intraDuplicate => exact ih (i + 1) b hseen hpair
    | historicalDuplicate rec =>
      exact ih (i + 1) { b with provenance := b.provenance ++ [rec] }
        hseen hpair
    | accepted =>
      have hintra := processEntry_accepted_not_intra feed a aiEnabled
        providerSetting st (judge i) b.seen cands hout
      have hnomatch := intraBatchDuplicate_false hintra
      refine ih (i + 1) _ ?_ ?_
      · intro x hx
        rcases List.mem_append.mp hx with hx | hx
        · exact List.mem_append_left _ (hseen x hx)
        · simp only [List.mem_singleton] at hx
          subst hx
          exact List.mem_append_right _ (by simp [sigPair])
      · rw [List.pairwise_append]
        refine ⟨hpair, by simp, ?_⟩
        intro x hx y hy
        simp only [List.mem_singleton] at hy
        subst hy
        have hxseen := hseen x hx
        have := (hnomatch _ hxseen).1
        unfold batchDissimilar
        rw [jaccardGe_symm]
        exact this

/-- An intra-batch duplicate entry contributes nothing to the batch: the
fold continues with `seen`, `accepted` and `provenance` unchanged. -/
theorem processBatchAux_intra_step (feed : DueFeedRow) (aiEnabled : Bool)
    (providerSetting : Option (List Nat)) (st : TranslationState)
    (judge : Nat → Nat → JudgeOutcome) (cands : List CandidateArticle)
    (a : NewArticle) (rest : List NewArticle) (i : Nat) (b : BatchState)
    (htok : (prepareTitleSignature a.title).2 ≠ ∅)
    (hdup : intraBatchDuplicate (prepareTitleSignature a.title).2
      (prepareTitleSignature a.title).1 b.seen = true) :
    processBatchAux feed aiEnabled providerSetting st judge cands (a :: rest)
        i b =
      processBatchAux feed aiEnabled providerSetting st judge cands rest
        (i + 1) b := by
  conv_lhs => unfold processBatchAux
  rw [processEntry_intraDuplicate feed a aiEnabled providerSetting st
    (judge i) b.seen cands htok hdup]

/-- C3: within one feed batch an entry whose signature strictly matches a
previously accepted entry (Jaccard ≥ 0.9, or identical normalized title)
is dropped with no provenance row, no acceptance and no change to the
dedup state; and the accepted entries of any batch are pairwise below the
strict threshold, so of two entries with Jaccard ≥ 0.9 at most one is
inserted. -/
theorem c3_intra_batch_dedup :
    (∀ (feed : DueFeedRow) (aiEnabled : Bool)
       (providerSetting : Option (List Nat)) (st : TranslationState)
       (judge : Nat → Nat → JudgeOutcome) (cands : List CandidateArticle)
       (a : NewArticle) (rest : List NewArticle) (i : Nat) (b : BatchState),
       (prepareTitleSignature a.title).2 ≠ ∅ →
       intraBatchDuplicate (prepareTitleSignature a.title).2
         (prepareTitleSignature a.title).1 b.seen = true →
       processBatchAux feed aiEnabled providerSetting st judge cands
           (a :: rest) i b =
         processBatchAux feed aiEnabled providerSetting st judge cands rest
           (i + 1) b) ∧
    (∀ (feed : DueFeedRow) (aiEnabled : Bool)
       (providerSetting : Option (List Nat)) (st : TranslationState)
       (judge : Nat → Nat → JudgeOutcome) (cands : List CandidateArticle)
       (entries : List NewArticle),
       (processBatch feed aiEnabled providerSetting st judge cands
         entries).accepted.Pairwise batchDissimilar) := by
  constructor
  · exact processBatchAux_intra_step
  · intro feed aiEnabled providerSetting st judge cands entries
    exact (processBatchAux_pairwise feed aiEnabled providerSetting st judge
      cands entries 0 ⟨[], [], []⟩ (by simp) (by simp)).2

/-- The provenance row written for a strict historical Jaccard hit. -/
def strictHitRecord (feed : DueFeedRow) (article : NewArticle)
    (tokens : Finset (List Nat)) (c : CandidateArticle) : ArticleSourceRecord :=
  recordArticleSource feed article c.summary.articleId
    (some (ustr "recent_jaccard")) (some (jaccardRat tokens c.tokens))

/-- If the first strict-similarity candidate in scan order is `c`, the LLM
never affirms a duplicate, and fewer in-band candidates than the LLM
budget precede `c`, the scan stops at `c` with the `recent_jaccard`
provenance row. -/
theorem scanHistorical_first_strict (feed : DueFeedRow) (article : NewArticle)
    (tokens : Finset (List Nat)) (aiEnabled : Bool)
    (providerSetting : Option (List Nat)) (st : TranslationState)
    (judge : Nat → JudgeOutcome) (c : CandidateArticle) :
    ∀ (cands : List CandidateArticle) (idx checks : Nat),
      cands.find? (fun d => jaccardGe tokens d.tokens 9 10) = some c →
      (∀ n r cf, judge n ≠ .ok true r cf) →
      (aiEnabled = false ∨ aiProviderSelect st providerSetting = none ∨
        checks + ((cands.takeWhile
            (fun d => !jaccardGe tokens d.tokens 9 10)).filter
          (fun d => jaccardGe tokens d.tokens 6 10)).length ≤ 3) →
      (scanHistorical feed article tokens aiEnabled providerSetting st judge
          cands idx checks).dropRecord =
        some (strictHitRecord feed article tokens c) := by
  intro cands
  induction cands with
  | nil => intro idx checks hfind; simp at hfind
  | cons d rest ih =>
    intro idx checks hfind hj hbudget
    by_cases hstrict : jaccardGe tokens d.tokens 9 10 = true
    · rw [List.find?_cons_of_pos
        (p := fun x => jaccardGe tokens x.tokens 9 10) rest hstrict] at hfind
      injection hfind with hc
      subst hc
      rw [scanHistorical]
      rw [if_pos hstrict]
      rfl
    · have hstrict' : jaccardGe tokens d.tokens 9 10 = false :=
        Bool.eq_false_iff.mpr hstrict
      rw [List.find?_cons_of_neg
        (p := fun x => jaccardGe tokens x.tokens 9 10) rest hstrict] at hfind
      have hfl : ((d :: rest).takeWhile
            (fun x => !jaccardGe tokens x.tokens 9 10)).filter
            (fun x => jaccardGe tokens x.tokens 6 10) =
          if jaccardGe tokens d.tokens 6 10 = true then
            d :: (rest.takeWhile (fun x => !jaccardGe tokens x.tokens 9 10)).filter
              (fun x => jaccardGe tokens x.tokens 6 10)
          else (rest.takeWhile (fun x => !jaccardGe tokens x.tokens 9 10)).filter
              (fun x => jaccardGe tokens x.tokens 6 10) := by
        rw [List.takeWhile_cons, if_pos (by simp [hstrict']), List.filter_cons]
      have hbudgetR : aiEnabled = false ∨
          aiProviderSelect st providerSetting = none ∨
          checks + ((rest.takeWhile
              (fun x => !jaccardGe tokens x.tokens 9 10)).filter
            (fun x => jaccardGe tokens x.tokens 6 10)).length ≤ 3 := by
        rcases hbudget with h | h | h
        · exact Or.inl h
        · exact Or.inr (Or.inl h)
        · refine Or.inr (Or.inr ?_)
          rw [hfl] at h
          by_cases hb : jaccardGe tokens d.tokens 6 10 = true
          · rw [if_pos hb] at h
            simp only [List.length_cons] at h
            omega
          · rw [if_neg hb] at h
            omega
      rw [scanHistorical]
      rw [if_neg hstrict]
      by_cases hband : (aiEnabled && jaccardGe tokens d.tokens 6 10) = true
      · rw [if_pos hband]
        have haiE : aiEnabled = true := ((Bool.and_eq_true _ _).mp hband).1
        have hb : jaccardGe tokens d.tokens 6 10 = true :=
          ((Bool.and_eq_true _ _).mp hband).2
        split
        · exact ih (idx + 1) checks hfind hj hbudgetR
        · rename_i p hsel
          have h3 : checks + 1 + ((rest.takeWhile
                (fun x => !jaccardGe tokens x.tokens 9 10)).filter
              (fun x => jaccardGe tokens x.tokens 6 10)).length ≤ 3 := by
            rcases hbudget with h | h | h
            · rw [h] at haiE; exact absurd haiE (by simp)
            · rw [h] at hsel; exact absurd hsel (by simp)
            · rw [hfl, if_pos hb] at h
              simp only [List.length_cons] at h
              omega
          rw [if_neg (by omega)]
          split
          · rename_i reason conf hjo
            exact absurd hjo (hj checks reason conf)
          · rename_i reason conf hjo
            show (consCall _ _).dropRecord = _
            unfold consCall
            exact ih (idx + 1) (checks + 1) hfind hj
              (Or.inr (Or.inr (by omega)))
          · rename_i hjo
            show (consCall _ _).dropRecord = _
            unfold consCall
            exact ih (idx + 1) (checks + 1) hfind hj
              (Or.inr (Or.inr (by omega)))
      · rw [if_neg hband]
        exact ih (idx + 1) checks hfind hj hbudgetR

/-- Lifting `scanHistorical_first_strict` through the per-entry pipeline. -/
theorem processEntry_first_strict (feed : DueFeedRow) (article : NewArticle)
    (aiEnabled : Bool) (providerSetting : Option (List Nat))
    (st : TranslationState) (judge : Nat → JudgeOutcome)
    (seen : List (Finset (List Nat) × List Nat)) (cands : List CandidateArticle)
    (c : CandidateArticle)
    (hintra : intraBatchDuplicate (prepareTitleSignature article.title).2
      (prepareTitleSignature article.title).1 seen = false)
    (hfind : cands.find? (fun d =>
      jaccardGe (prepareTitleSignature article.title).2 d.tokens 9 10) = some c)
    (hj : ∀ n r cf, judge n ≠ .ok true r cf)
    (hbudget : aiEnabled = false ∨
      aiProviderSelect st providerSetting = none ∨
      ((cands.takeWhile (fun d =>
          !jaccardGe (prepareTitleSignature article.title).2 d.tokens 9 10)).filter
        (fun d =>
          jaccardGe (prepareTitleSignature article.title).2 d.tokens 6 10)).length ≤ 3) :
    (processEntry feed article aiEnabled providerSetting st judge seen
        cands).1 =
      .historicalDuplicate (strictHitRecord feed article
        (prepareTitleSignature article.title).2 c) := by
  have htok : (prepareTitleSignature article.title).2 ≠ ∅ := by
    have hpred := List.find?_some hfind
    exact (jaccardGe_nonempty (by simpa using hpred)).1
  have hscan := scanHistorical_first_strict feed article
    (prepareTitleSignature article.title).2 aiEnabled providerSetting st judge
    c cands 0 0 hfind hj (by simpa using hbudget)
  unfold processEntry
  rw [if_neg htok, if_neg (by simp [hintra])]
  cases hs : scanHistorical feed article (prepareTitleSignature article.title).2
      aiEnabled providerSetting st judge cands 0 0 with
  | mk dr cl =>
    rw [hs] at hscan
    simp only at hscan
    rw [hscan]

/-- C1 (amended): when the entry reaches the historical scan (nonempty
tokens, no intra-batch match), the LLM never affirms a duplicate, and at
most 3 in-band candidates precede the first strict match, the batch fold
drops the entry and appends exactly one provenance row carrying the
matched article's id, the entry's URL, decision "recent_jaccard" and the
computed similarity; the accepted list and dedup state are unchanged. -/
theorem c1_recent_jaccard_amended (feed : DueFeedRow) (aiEnabled : Bool)
    (providerSetting : Option (List Nat)) (st : TranslationState)
    (judge : Nat → Nat → JudgeOutcome) (cands : List CandidateArticle)
    (a : NewArticle) (rest : List NewArticle) (i : Nat) (b : BatchState)
    (c : CandidateArticle)
    (hintra : intraBatchDuplicate (prepareTitleSignature a.title).2
      (prepareTitleSignature a.title).1 b.seen = false)
    (hfind : cands.find? (fun d =>
      jaccardGe (prepareTitleSignature a.title).2 d.tokens 9 10) = some c)
    (hj : ∀ n r cf, judge i n ≠ .ok true r cf)
    (hbudget : aiEnabled = false ∨
      aiProviderSelect st providerSetting = none ∨
      ((cands.takeWhile (fun d =>
          !jaccardGe (prepareTitleSignature a.title).2 d.tokens 9 10)).filter
        (fun d =>
          jaccardGe (prepareTitleSignature a.title).2 d.tokens 6 10)).length ≤ 3) :
    processBatchAux feed aiEnabled providerSetting st judge cands (a :: rest)
        i b =
      processBatchAux feed aiEnabled providerSetting st judge cands rest
        (i + 1)
        { b with provenance := b.provenance ++
            [strictHitRecord feed a (prepareTitleSignature a.title).2 c] } := by
  conv_lhs => unfold processBatchAux
  rw [processEntry_first_strict feed a aiEnabled providerSetting st (judge i)
    b.seen cands c hintra hfind hj hbudget]

/-! Concrete fixtures used by witnesses and counterexamples. -/

def feedFx : DueFeedRow :=
  ⟨1, ustr "https://feed.example/rss", ustr "feed.example", none, none⟩

/-- Deepseek configured and verified. -/
def stFx : TranslationState :=
  ⟨.deepseek, false, false, true, true, false, false, false⟩

/-- Deepseek configured but NOT verified. -/
def stUnverifiedFx : TranslationState :=
  ⟨.deepseek, false, false, true, false, false, false, false⟩

def articleStrictFx : NewArticle :=
  ⟨some 1, ustr "aa bb cc dd ee", ustr "https://new.example/x", none, none,
   ustr "feed.example", 5⟩

/-- Candidate with the same five tokens: Jaccard 1.0 (strict hit). -/
def candStrictFx : CandidateArticle :=
  ⟨titleTokens (ustr "aa bb cc dd ee"),
   ⟨7, ustr "aa bb cc dd ee", ustr "old.example", ustr "https://old.example/y",
    none, 9⟩⟩

/-- Candidate sharing four of five tokens: Jaccard 0.8 (LLM band). -/
def candBandFx : CandidateArticle :=
  ⟨titleTokens (ustr "aa bb cc dd"),
   ⟨8, ustr "aa bb cc dd", ustr "old.example", ustr "https://old.example/z",
    none, 8⟩⟩

def judgeNotDupFx : Nat → JudgeOutcome := fun _ => .ok false none none

def judgeErrFx : Nat → JudgeOutcome := fun _ => .error

def judgeDupFx : Nat → JudgeOutcome :=
  fun _ => .ok true none (some ((9 : ℚ) / 10))

def batch0 : BatchState := ⟨[], [], []⟩

/-- C1 (counterexample): with ai-dedup enabled, four in-band candidates
ahead of a perfect-match candidate exhaust the LLM budget; the scan then
`break`s, the strict match is never reached and the entry is accepted —
although its token set has Jaccard 1.0 ≥ 0.9 with a snapshot article, it
IS inserted and no provenance row is written. -/
theorem c1_counterexample :
    (∃ d ∈ [candBandFx, candBandFx, candBandFx, candBandFx, candStrictFx],
      jaccardGe (prepareTitleSignature articleStrictFx.title).2 d.tokens 9 10
        = true) ∧
    (processEntry feedFx articleStrictFx true (some (ustr "deepseek")) stFx
      judgeNotDupFx []
      [candBandFx, candBandFx, candBandFx, candBandFx, candStrictFx]).1 =
      .accepted := by
  constructor
  · decide
  · decide

/-- C1 (witness): concrete instantiation of the amended theorem — ai-dedup
disabled, a single perfect-match candidate. -/
theorem c1_witness :
    processBatchAux feedFx false none stFx (fun _ => judgeErrFx)
        [candStrictFx] [articleStrictFx] 0 batch0 =
      processBatchAux feedFx false none stFx (fun _ => judgeErrFx)
        [candStrictFx] [] 1
        { batch0 with provenance := batch0.provenance ++
            [strictHitRecord feedFx articleStrictFx
              (prepareTitleSignature articleStrictFx.title).2 candStrictFx] } :=
  c1_recent_jaccard_amended feedFx false none stFx (fun _ => judgeErrFx)
    [candStrictFx] articleStrictFx [] 0 batch0 candStrictFx (by decide)
    (by decide) (fun n r cf h => nomatch h) (Or.inl rfl)

/-- The scan makes at most `3 - checks` further LLM calls. -/
theorem scanHistorical_calls_le (feed : DueFeedRow) (article : NewArticle)
    (tokens : Finset (List Nat)) (aiEnabled : Bool)
    (providerSetting : Option (List Nat)) (st : TranslationState)
    (judge : Nat → JudgeOutcome) :
    ∀ (cands : List CandidateArticle) (idx checks : Nat),
      (scanHistorical feed article tokens aiEnabled providerSetting st judge
        cands idx checks).calls.length ≤ 3 - checks := by
  intro cands
  induction cands with
  | nil => intro idx checks; simp [scanHistorical]
  | cons d rest ih =>
    intro idx checks
    rw [scanHistorical]
    split
    · simp
    · split
      · split
        · exact ih (idx + 1) checks
        · split
          · simp
          · rename_i hchecks
            split
            · simp
              omega
            · show (consCall _ _).calls.length ≤ _
              unfold consCall
              simp only [List.length_cons]
              have := ih (idx + 1) (checks + 1)
              omega
            · show (consCall _ _).calls.length ≤ _
              unfold consCall
              simp only [List.length_cons]
              have := ih (idx + 1) (checks + 1)
              omega
      · exact ih (idx + 1) checks

/-- A below-strict, in-band head candidate with an available provider, a
remaining budget and a duplicate verdict produces the LLM provenance row:
decision is the judgment's reason with default "deepseek_duplicate",
confidence is the judgment's confidence. -/
theorem scanHistorical_llm_drop (feed : DueFeedRow) (article : NewArticle)
    (tokens : Finset (List Nat)) (aiEnabled : Bool)
    (providerSetting : Option (List Nat)) (st : TranslationState)
    (judge : Nat → JudgeOutcome) (cand : CandidateArticle)
    (cands : List CandidateArticle) (idx checks : Nat)
    (reason : Option (List Nat)) (conf : Option ℚ) (p : TranslatorProvider)
    (hstrict : jaccardGe tokens cand.tokens 9 10 = false)
    (hband : (aiEnabled && jaccardGe tokens cand.tokens 6 10) = true)
    (hsel : aiProviderSelect st providerSetting = some p)
    (hchecks : checks < 3)
    (hjudge : judge checks = .ok true reason conf) :
    scanHistorical feed article tokens aiEnabled providerSetting st judge
        (cand :: cands) idx checks =
      ⟨some (recordArticleSource feed article cand.summary.articleId
          (some (reason.getD (ustr "deepseek_duplicate"))) conf),
       [⟨idx, p, providerVerified st p⟩]⟩ := by
  rw [scanHistorical]
  rw [if_neg (by simp [hstrict]), if_pos hband, hsel]
  simp only
  rw [if_neg (by omega), hjudge]

/-- Replacing every erroring (or timed-out) LLM call by a not-duplicate
verdict does not change the scan: errors drop nothing and scanning
continues with the next candidate. -/
theorem scanHistorical_error_continue (feed : DueFeedRow)
    (article : NewArticle) (tokens : Finset (List Nat)) (aiEnabled : Bool)
    (providerSetting : Option (List Nat)) (st : TranslationState)
    (judge judge2 : Nat → JudgeOutcome)
    (hcorr : ∀ n, (judge n = .error ∧ judge2 n = .ok false none none) ∨
      judge n = judge2 n) :
    ∀ (cands : List CandidateArticle) (idx checks : Nat),
      scanHistorical feed article tokens aiEnabled providerSetting st judge
          cands idx checks =
        scanHistorical feed article tokens aiEnabled providerSetting st
          judge2 cands idx checks := by
  intro cands
  induction cands with
  | nil => intro idx checks; rfl
  | cons d rest ih =>
    intro idx checks
    rw [scanHistorical]
    conv_rhs => rw [scanHistorical]
    split
    · rfl
    · split
      · split
        · exact ih (idx + 1) checks
        · split
          · rfl
          · rcases hcorr checks with ⟨h1, h2⟩ | h
            · rw [h1, h2]
              unfold consCall
              rw [ih (idx + 1) (checks + 1)]
            · rw [← h]
              cases hjo : judge checks with
              | ok dup reason conf =>
                cases dup with
                | true => rfl
                | false => unfold consCall; rw [ih (idx + 1) (checks + 1)]
              | error => unfold consCall; rw [ih (idx + 1) (checks + 1)]
      · exact ih (idx + 1) checks

/-- C2 (amended): at most `MAX_DEEPSEEK_CHECKS = 3` LLM similarity calls
are made per entry; an in-band (0.6 ≤ J < 0.9) candidate with an
available provider and a duplicate verdict drops the entry with
provenance decision = judgment reason, defaulting to
"deepseek_duplicate" (not "llm_duplicate"), and confidence = judgment
confidence; an erroring or timed-out call behaves exactly like a
not-duplicate verdict (the entry is not dropped for that candidate and
scanning continues). -/
theorem c2_llm_dedup_amended :
    (∀ (feed : DueFeedRow) (article : NewArticle) (tokens : Finset (List Nat))
       (aiEnabled : Bool) (providerSetting : Option (List Nat))
       (st : TranslationState) (judge : Nat → JudgeOutcome)
       (cands : List CandidateArticle) (idx : Nat),
       (scanHistorical feed article tokens aiEnabled providerSetting st judge
         cands idx 0).calls.length ≤ 3) ∧
    (∀ (feed : DueFeedRow) (article : NewArticle) (tokens : Finset (List Nat))
       (aiEnabled : Bool) (providerSetting : Option (List Nat))
       (st : TranslationState) (judge : Nat → JudgeOutcome)
       (cand : CandidateArticle) (cands : List CandidateArticle)
       (idx checks : Nat) (reason : Option (List Nat)) (conf : Option ℚ)
       (p : TranslatorProvider),
       jaccardGe tokens cand.tokens 9 10 = false →
       (aiEnabled && jaccardGe tokens cand.tokens 6 10) = true →
       aiProviderSelect st providerSetting = some p →
       checks < 3 →
       judge checks = .ok true reason conf →
       scanHistorical feed article tokens aiEnabled providerSetting st judge
           (cand :: cands) idx checks =
         ⟨some (recordArticleSource feed article cand.summary.articleId
             (some (reason.getD (ustr "deepseek_duplicate"))) conf),
          [⟨idx, p, providerVerified st p⟩]⟩) ∧
    (∀ (feed : DueFeedRow) (article : NewArticle) (tokens : Finset (List Nat))
       (aiEnabled : Bool) (providerSetting : Option (List Nat))
       (st : TranslationState) (judge judge2 : Nat → JudgeOutcome),
       (∀ n, (judge n = .error ∧ judge2 n = .ok false none none) ∨
         judge n = judge2 n) →
       ∀ (cands : List CandidateArticle) (idx checks : Nat),
         scanHistorical feed article tokens aiEnabled providerSetting st
             judge cands idx checks =
           scanHistorical feed article tokens aiEnabled providerSetting st
             judge2 cands idx checks) := by
  refine ⟨?_, scanHistorical_llm_drop, scanHistorical_error_continue⟩
  intro feed article tokens aiEnabled providerSetting st judge cands idx
  simpa using scanHistorical_calls_le feed article tokens aiEnabled
    providerSetting st judge cands idx 0

/-- C2 (counterexample): a duplicate verdict with no reason records
decision "deepseek_duplicate", not "llm_duplicate" as the claim states. -/
theorem c2_counterexample :
    ((scanHistorical feedFx articleStrictFx
        (prepareTitleSignature articleStrictFx.title).2 true
        (some (ustr "deepseek")) stFx judgeDupFx [candBandFx] 0
        0).dropRecord.map (fun r => r.decision)) =
      some (some (ustr "deepseek_duplicate")) ∧
    ustr "deepseek_duplicate" ≠ ustr "llm_duplicate" := by
  constructor
  · decide
  · decide

/-- C2 (witness): concrete instantiation of the duplicate-verdict clause
of the amended theorem. -/
theorem c2_witness :
    scanHistorical feedFx articleStrictFx
        (prepareTitleSignature articleStrictFx.title).2 true
        (some (ustr "deepseek")) stFx judgeDupFx [candBandFx] 0 0 =
      ⟨some (recordArticleSource feedFx articleStrictFx
          candBandFx.summary.articleId
          (some ((none : Option (List Nat)).getD (ustr "deepseek_duplicate")))
          (some ((9 : ℚ) / 10))),
       [⟨0, .deepseek, providerVerified stFx .deepseek⟩]⟩ :=
  c2_llm_dedup_amended.2.1 feedFx articleStrictFx
    (prepareTitleSignature articleStrictFx.title).2 true
    (some (ustr "deepseek")) stFx judgeDupFx candBandFx [] 0 0 none
    (some ((9 : ℚ) / 10)) .deepseek (by decide) (by decide) (by decide)
    (by decide) rfl

/-! ## Translation engine call path (`util/translator.rs`) -/

/-- `PROVIDER_PRIORITY`. -/
def priorityList : List TranslatorProvider := [.deepseek, .baidu, .ollama]

/-- The provider order snapshot taken by `translate`: the current
provider first when available, then the remaining available providers in
priority order. -/
def providerOrder (s : TranslationState) : List TranslatorProvider :=
  (if providerAvailable s s.provider then [s.provider] else []) ++
  priorityList.filter
    (fun p => decide (p ≠ s.provider) && providerAvailable s p)

/-- Outcome of one provider's network translation attempt (oracle). -/
inductive TransCallResult where
  | success (title : List Nat) (description : Option (List Nat))
  | failure
deriving DecidableEq

inductive TryOutcome where
  | notConfigured
  | ok (title : List Nat) (description : Option (List Nat))
  | err
deriving DecidableEq

/-- `try_provider`: missing client or unverified provider return
`NotConfigured` without any network call; otherwise the provider client
is called (the trace records the provider and its verified flag). -/
def tryProvider (s : TranslationState)
    (oracle : TranslatorProvider → TransCallResult) (p : TranslatorProvider) :
    TryOutcome × List (TranslatorProvider × Bool) :=
  if clientPresent s p = false then (.notConfigured, [])
  else if providerVerified s p = false then (.notConfigured, [])
  else
    match oracle p with
    | .success t d => (.ok t d, [(p, providerVerified s p)])
    | .failure => (.err, [(p, providerVerified s p)])

inductive TranslateOutcome where
  | translated (title : List Nat) (description : Option (List Nat))
  | skipped
  | failed
deriving DecidableEq

/-- The provider loop of `translate`: first success wins, `NotConfigured`
is skipped silently, other errors set `last_error` and continue. -/
def translateLoop (s : TranslationState)
    (oracle : TranslatorProvider → TransCallResult) :
    List TranslatorProvider → Bool →
    TranslateOutcome × List (TranslatorProvider × Bool)
  | [], sawErr => (if sawErr then .failed else .skipped, [])
  | p :: rest, sawErr =>
    match tryProvider s oracle p with
    | (.ok t d, tr) => (.translated t d, tr)
    | (.notConfigured, tr) =>
      let r := translateLoop s oracle rest sawErr
      (r.1, tr ++ r.2)
    | (.err, tr) =>
      let r := translateLoop s oracle rest true
      (r.1, tr ++ r.2)

/-- `translate`: empty availability snapshot returns `Ok(None)` with no
calls; otherwise the provider loop runs. -/
def translateEngine (s : TranslationState)
    (oracle : TranslatorProvider → TransCallResult) :
    TranslateOutcome × List (TranslatorProvider × Bool) :=
  if (providerOrder s).isEmpty then (.skipped, [])
  else translateLoop s oracle (providerOrder s) false

/-- Effect of one finished verification attempt on the engine state
(`verify_provider_credentials`): success sets the provider's verified
flag, failure clears it. -/
def applyVerify (s : TranslationState) (p : TranslatorProvider) (ok : Bool) :
    TranslationState :=
  match p with
  | .baidu => { s with baiduVerified := ok }
  | .deepseek => { s with deepseekVerified := ok }
  | .ollama => { s with ollamaVerified := ok }

def applyVerifyEvents (s : TranslationState)
    (evts : List (TranslatorProvider × Bool)) : TranslationState :=
  evts.foldl (fun acc e => applyVerify acc e.1 e.2) s

/-- The result of the most recent verification attempt for `p` in an
event list ordered oldest first. -/
def lastVerify : List (TranslatorProvider × Bool) → TranslatorProvider →
    Option Bool
  | [], _ => none
  | e :: rest, p =>
    match lastVerify rest p with
    | some b => some b
    | none => if e.1 = p then some e.2 else none

theorem tryProvider_calls_verified (s : TranslationState)
    (oracle : TranslatorProvider → TransCallResult) (p : TranslatorProvider) :
    ∀ pr ∈ (tryProvider s oracle p).2,
      pr.2 = true ∧ providerVerified s pr.1 = true := by
  intro pr hpr
  unfold tryProvider at hpr
  split at hpr
  · simp at hpr
  · split at hpr
    · simp at hpr
    · rename_i hcl hver
      rw [Bool.not_eq_false] at hver
      split at hpr <;>
      · simp only [List.mem_singleton] at hpr
        subst hpr
        exact ⟨hver, hver⟩

theorem translateLoop_calls_verified (s : TranslationState)
    (oracle : TranslatorProvider → TransCallResult) :
    ∀ (ps : List TranslatorProvider) (sawErr : Bool),
      ∀ pr ∈ (translateLoop s oracle ps sawErr).2,
        pr.2 = true ∧ providerVerified s pr.1 = true := by
  intro ps
  induction ps with
  | nil => intro sawErr pr hpr; simp [translateLoop] at hpr
  | cons p rest ih =>
    intro sawErr pr hpr
    rw [translateLoop] at hpr
    split at hpr
    · rename_i t d tr htr
      refine tryProvider_calls_verified s oracle p pr ?_
      rw [htr]
      exact hpr
    · rename_i tr htr
      simp only [List.mem_append] at hpr
      rcases hpr with hpr | hpr
      · refine tryProvider_calls_verified s oracle p pr ?_
        rw [htr]
        exact hpr
      · exact ih sawErr pr hpr
    · rename_i tr htr
      simp only [List.mem_append] at hpr
      rcases hpr with hpr | hpr
      · refine tryProvider_calls_verified s oracle p pr ?_
        rw [htr]
        exact hpr
      · exact ih true pr hpr

/-- Translation calls only go to verified providers. -/
theorem translateEngine_calls_verified (s : TranslationState)
    (oracle : TranslatorProvider → TransCallResult) :
    ∀ pr ∈ (translateEngine s oracle).2,
      pr.2 = true ∧ providerVerified s pr.1 = true := by
  intro pr hpr
  unfold translateEngine at hpr
  split at hpr
  · simp at hpr
  · exact translateLoop_calls_verified s oracle (providerOrder s) false pr hpr

theorem providerVerified_applyVerify (s : TranslationState)
    (q p : TranslatorProvider) (ok : Bool) :
    providerVerified (applyVerify s q ok) p =
      if q = p then ok else providerVerified s p := by
  cases q <;> cases p <;> simp [applyVerify, providerVerified]

/-- The verified flag after a sequence of verification outcomes is the
most recent outcome for that provider (or the initial flag when none). -/
theorem applyVerifyEvents_last (p : TranslatorProvider) :
    ∀ (evts : List (TranslatorProvider × Bool)) (s : TranslationState),
      providerVerified (applyVerifyEvents s evts) p =
        (lastVerify evts p).getD (providerVerified s p) := by
  intro evts
  induction evts with
  | nil => intro s; rfl
  | cons e rest ih =>
    intro s
    show providerVerified (applyVerifyEvents (applyVerify s e.1 e.2) rest) p
      = (lastVerify (e :: rest) p).getD (providerVerified s p)
    rw [ih]
    rw [lastVerify]
    cases hrest : lastVerify rest p with
    | some b => rfl
    | none =>
      simp only [Option.getD_none]
      rw [providerVerified_applyVerify]
      by_cases hp : e.1 = p
      · rw [if_pos hp, if_pos hp]
        rfl
      · rw [if_neg hp, if_neg hp]
        rfl

/-- A provider whose most recent verification attempt failed is never
called by `translate`. -/
theorem translateEngine_blocked_after_failure (s : TranslationState)
    (evts : List (TranslatorProvider × Bool)) (p : TranslatorProvider)
    (oracle : TranslatorProvider → TransCallResult)
    (hfail : lastVerify evts p = some false) :
    ∀ pr ∈ (translateEngine (applyVerifyEvents s evts) oracle).2,
      pr.1 ≠ p := by
  intro pr hpr hp
  have hver := (translateEngine_calls_verified (applyVerifyEvents s evts)
    oracle pr hpr).2
  rw [hp] at hver
  rw [applyVerifyEvents_last, hfail] at hver
  simp at hver

theorem aiProviderSelect_client (st : TranslationState)
    (providerSetting : Option (List Nat)) (p : TranslatorProvider)
    (h : aiProviderSelect st providerSetting = some p) :
    clientPresent st p = true := by
  unfold aiProviderSelect at h
  split at h
  · exact absurd h (by simp)
  · split at h
    · split at h
      · rename_i hcl
        injection h with h
        subst h
        exact hcl
      · exact absurd h (by simp)
    · split at h
      · split at h
        · rename_i hcl
          injection h with h
          subst h
          exact hcl
        · exact absurd h (by simp)
      · exact absurd h (by simp)

/-- Every LLM similarity call of the historical scan uses a provider with
a configured client and matching the ai-dedup provider selection — but
nothing about its verified flag. -/
theorem scanHistorical_calls_client (feed : DueFeedRow)
    (article : NewArticle) (tokens : Finset (List Nat)) (aiEnabled : Bool)
    (providerSetting : Option (List Nat)) (st : TranslationState)
    (judge : Nat → JudgeOutcome) :
    ∀ (cands : List CandidateArticle) (idx checks : Nat),
      ∀ call ∈ (scanHistorical feed article tokens aiEnabled providerSetting
        st judge cands idx checks).calls,
        clientPresent st call.provider = true ∧
        aiProviderSelect st providerSetting = some call.provider := by
  intro cands
  induction cands with
  | nil => intro idx checks call hc; simp [scanHistorical] at hc
  | cons d rest ih =>
    intro idx checks call hc
    rw [scanHistorical] at hc
    split at hc
    · simp at hc
    · split at hc
      · split at hc
        · exact ih (idx + 1) checks call hc
        · rename_i p hsel
          split at hc
          · simp at hc
          · split at hc
            · simp only [List.mem_singleton] at hc
              subst hc
              exact ⟨aiProviderSelect_client st providerSetting p hsel, hsel⟩
            · rcases List.mem_cons.mp hc with h | h
              · subst h
                exact ⟨aiProviderSelect_client st providerSetting p hsel, hsel⟩
              · exact ih (idx + 1) (checks + 1) call h
            · rcases List.mem_cons.mp hc with h | h
              · subst h
                exact ⟨aiProviderSelect_client st providerSetting p hsel, hsel⟩
              · exact ih (idx + 1) (checks + 1) call h
      · exact ih (idx + 1) checks call hc

/-- C5 (amended): the translation call path never uses a provider whose
verified flag is false, and a provider whose most recent verification
attempt failed stays unused by `translate` until a later attempt
succeeds; the similarity-judgment path of the fetcher, however, obtains
clients through `deepseek_client()`/`ollama_client()`, which require only
a configured client, not verification. -/
theorem c5_verified_gating_amended :
    (∀ (s : TranslationState) (oracle : TranslatorProvider → TransCallResult),
      ∀ pr ∈ (translateEngine s oracle).2,
        pr.2 = true ∧ providerVerified s pr.1 = true) ∧
    (∀ (s : TranslationState) (evts : List (TranslatorProvider × Bool))
       (p : TranslatorProvider)
       (oracle : TranslatorProvider → TransCallResult),
       lastVerify evts p = some false →
       ∀ pr ∈ (translateEngine (applyVerifyEvents s evts) oracle).2,
         pr.1 ≠ p) ∧
    (∀ (feed : DueFeedRow) (article : NewArticle) (tokens : Finset (List Nat))
       (aiEnabled : Bool) (providerSetting : Option (List Nat))
       (st : TranslationState) (judge : Nat → JudgeOutcome)
       (cands : List CandidateArticle) (idx checks : Nat),
       ∀ call ∈ (scanHistorical feed article tokens aiEnabled providerSetting
         st judge cands idx checks).calls,
         clientPresent st call.provider = true ∧
         aiProviderSelect st providerSetting = some call.provider) :=
  ⟨translateEngine_calls_verified, translateEngine_blocked_after_failure,
   scanHistorical_calls_client⟩

def oracleOkFx : TranslatorProvider → TransCallResult :=
  fun _ => .success (ustr "翻译标题") none

/-- C5 (counterexample): with a configured but unverified deepseek client
the ai-dedup path still calls `judge_similarity` — the recorded call
carries `verified = false`, refuting "no provider client is called for
similarity judgment while that provider's verified flag is false". -/
theorem c5_counterexample :
    stUnverifiedFx.deepseekClient = true ∧
    stUnverifiedFx.deepseekVerified = false ∧
    (scanHistorical feedFx articleStrictFx
        (prepareTitleSignature articleStrictFx.title).2 true
        (some (ustr "deepseek")) stUnverifiedFx judgeNotDupFx [candBandFx] 0
        0).calls = [⟨0, .deepseek, false⟩] := by
  refine ⟨rfl, rfl, ?_⟩
  decide

/-- C5 (witness): the first clause of the amended theorem applied to a
verified deepseek state whose translate run makes exactly one call. -/
theorem c5_witness :
    ((TranslatorProvider.deepseek, true) : TranslatorProvider × Bool).2 =
      true ∧
    providerVerified stFx TranslatorProvider.deepseek = true :=
  c5_verified_gating_amended.1 stFx oracleOkFx (.deepseek, true) (by decide)

/-- Batch state whose `seen_signatures` already holds the signature of
`articleStrictFx`. -/
def batchSeenFx : BatchState :=
  ⟨[((prepareTitleSignature articleStrictFx.title).2,
     (prepareTitleSignature articleStrictFx.title).1)], [articleStrictFx], []⟩

/-- C3 (witness): re-processing an entry whose signature is already in
`seen_signatures` contributes nothing to the batch. -/
theorem c3_witness :
    processBatchAux feedFx false none stFx (fun _ => judgeErrFx) []
        [articleStrictFx] 3 batchSeenFx =
      processBatchAux feedFx false none stFx (fun _ => judgeErrFx) [] [] 4
        batchSeenFx :=
  c3_intra_batch_dedup.1 feedFx false none stFx (fun _ => judgeErrFx) []
    articleStrictFx [] 3 batchSeenFx (by decide) (by decide)

/-! ## Translation decision and per-entry translation
(`fetcher/mod.rs:123-175` and `:598-718`) -/

def asciiLetterCount (t : List Nat) : Nat :=
  (t.filter charIsAsciiAlphabetic).length

/-- Letters counted by the `else if ch.is_alphabetic()` arm: alphabetic
but not ASCII-alphabetic (ASCII digits hit neither arm). -/
def nonAsciiLetterCount (t : List Nat) : Nat :=
  (t.filter (fun c => !charIsAsciiAlphabetic c && charIsAlphabetic c)).length

/-- `should_translate_title`: empty-after-trim and CJK titles are not
translated; otherwise translate when there is at least one ASCII letter
and the ASCII share of all letters reaches 0.6 (`ratio >= 0.6` over
`f32`, embedded as the exact rational comparison). -/
def shouldTranslateTitle (t : List Nat) : Bool :=
  if (t.filter (fun c => !charIsWhitespace c)).isEmpty then false
  else if t.any charIsCjk then false
  else if asciiLetterCount t + nonAsciiLetterCount t = 0 then false
  else if asciiLetterCount t = 0 then false
  else decide (3 * (asciiLetterCount t + nonAsciiLetterCount t) ≤
    5 * asciiLetterCount t)

/-- The translation condition as the claim words it: title non-empty, no
CJK code point, at least one ASCII letter, ASCII-letter ratio ≥ 0.6. -/
def refTranslateDecision (t : List Nat) : Bool :=
  decide (t ≠ []) && !(t.any charIsCjk) &&
  decide (1 ≤ asciiLetterCount t) &&
  decide (3 * (asciiLetterCount t + nonAsciiLetterCount t) ≤
    5 * asciiLetterCount t)

theorem ws_not_asciiAlpha (c : Nat) (h : charIsWhitespace c = true) :
    charIsAsciiAlphabetic c = false := by
  rw [charIsWhitespace_spec] at h
  rw [Bool.eq_false_iff]
  intro ha
  simp only [charIsAsciiAlphabetic, Bool.or_eq_true, Bool.and_eq_true,
    decide_eq_true_eq] at ha
  omega

/-- The source's translation decision coincides with the claim's. -/
theorem shouldTranslate_eq_ref (t : List Nat) :
    shouldTranslateTitle t = refTranslateDecision t := by
  unfold shouldTranslateTitle refTranslateDecision
  by_cases hws : (t.filter (fun c => !charIsWhitespace c)).isEmpty = true
  · rw [if_pos hws]
    have hascii : asciiLetterCount t = 0 := by
      unfold asciiLetterCount
      rw [List.length_eq_zero]
      rw [List.filter_eq_nil_iff]
      intro c hc
      rw [List.isEmpty_eq_true, List.filter_eq_nil_iff] at hws
      have hcw : charIsWhitespace c = true := by
        have h2 := hws c hc
        simp only [Bool.not_eq_eq_eq_not, Bool.not_true] at h2
        cases h3 : charIsWhitespace c
        · exact absurd h3 h2
        · rfl
      simp [ws_not_asciiAlpha c hcw]
    rw [hascii]
    simp
  · rw [if_neg hws]
    have hne : t ≠ [] := by
      intro h
      subst h
      simp at hws
    rw [decide_eq_true hne]
    by_cases hcjk : t.any charIsCjk = true
    · rw [if_pos hcjk, hcjk]
      simp
    · rw [if_neg hcjk, Bool.eq_false_iff.mpr hcjk]
      simp only [Bool.not_false, Bool.true_and]
      by_cases h0 : asciiLetterCount t + nonAsciiLetterCount t = 0
      · rw [if_pos h0]
        have ha : asciiLetterCount t = 0 := by omega
        rw [ha]
        simp
      · rw [if_neg h0]
        by_cases ha0 : asciiLetterCount t = 0
        · rw [if_pos ha0, ha0]
          simp
        · rw [if_neg ha0]
          rw [decide_eq_true (by omega : 1 ≤ asciiLetterCount t)]
          simp

inductive TransAttempt where
  | translated (title : List Nat) (description : Option (List Nat))
  | noProvider
  | failed
deriving DecidableEq

inductive TransEvent where
  | engineCall
  | sleepMs300
deriving DecidableEq

/-- Field updates applied on `Ok(Some(translated))`: overwrite the title,
overwrite the description only when the provider returned one, set the
language to `zh-CN`. -/
def applyTranslated (a : NewArticle) (t : List Nat)
    (d : Option (List Nat)) : NewArticle :=
  { a with
    title := t
    description := if d.isSome then d else a.description
    language := some (ustr "zh-CN") }

/-- The translation step of the per-entry pipeline: the engine runs only
when the decision holds and translation is globally enabled; a failure is
retried exactly once after a 300 ms sleep; a second failure (or a
provider-less retry) keeps the original fields.  `r1`, `r2` are the
engine outcomes of the two possible calls. -/
def translateEntryStep (enabled : Bool) (r1 r2 : TransAttempt)
    (a : NewArticle) : NewArticle × List TransEvent :=
  if shouldTranslateTitle a.title = false then (a, [])
  else if enabled = false then (a, [])
  else
    match r1 with
    | .translated t d => (applyTranslated a t d, [.engineCall])
    | .noProvider => (a, [.engineCall])
    | .failed =>
      match r2 with
      | .translated t d =>
        (applyTranslated a t d, [.engineCall, .sleepMs300, .engineCall])
      | .noProvider => (a, [.engineCall, .sleepMs300, .engineCall])
      | .failed => (a, [.engineCall, .sleepMs300, .engineCall])

/-- C4: the engine is invoked iff translation is globally enabled and the
title is non-empty, CJK-free and ASCII-dominated (ratio ≥ 0.6 with ≥ 1
ASCII letter); success overwrites the title, overwrites the description
only if the provider returned one and sets language "zh-CN"; an error is
retried once after a 300 ms sleep; a second failure keeps the original
title and description. -/
theorem c4_translation_decision :
    (∀ t, shouldTranslateTitle t = refTranslateDecision t) ∧
    (∀ (enabled : Bool) (r1 r2 : TransAttempt) (a : NewArticle),
      (translateEntryStep enabled r1 r2 a).2 ≠ [] ↔
        (enabled = true ∧ refTranslateDecision a.title = true)) ∧
    (∀ (r2 : TransAttempt) (a : NewArticle) (t : List Nat)
       (d : Option (List Nat)),
      shouldTranslateTitle a.title = true →
      translateEntryStep true (.translated t d) r2 a =
        (applyTranslated a t d, [.engineCall]) ∧
      (applyTranslated a t d).title = t ∧
      (applyTranslated a t d).description =
        (if d.isSome then d else a.description) ∧
      (applyTranslated a t d).language = some (ustr "zh-CN")) ∧
    (∀ (a : NewArticle) (t : List Nat) (d : Option (List Nat)),
      shouldTranslateTitle a.title = true →
      translateEntryStep true .failed (.translated t d) a =
        (applyTranslated a t d, [.engineCall, .sleepMs300, .engineCall])) ∧
    (∀ (a : NewArticle) (r2 : TransAttempt),
      shouldTranslateTitle a.title = true →
      r2 = .failed ∨ r2 = .noProvider →
      translateEntryStep true .failed r2 a =
        (a, [.engineCall, .sleepMs300, .engineCall])) := by
  refine ⟨shouldTranslate_eq_ref, ?_, ?_, ?_, ?_⟩
  · intro enabled r1 r2 a
    unfold translateEntryStep
    by_cases hdec : shouldTranslateTitle a.title = false
    · rw [if_pos hdec]
      rw [← shouldTranslate_eq_ref]
      simp [hdec]
    · rw [if_neg hdec]
      rw [Bool.not_eq_false] at hdec
      by_cases hen : enabled = false
      · rw [if_pos hen]
        subst hen
        simp
      · rw [if_neg hen]
        rw [Bool.not_eq_false] at hen
        rw [← shouldTranslate_eq_ref]
        cases r1 with
        | translated t d => simp [hen, hdec]
        | noProvider => simp [hen, hdec]
        | failed => cases r2 <;> simp [hen, hdec]
  · intro r2 a t d hdec
    refine ⟨?_, rfl, rfl, rfl⟩
    unfold translateEntryStep
    rw [if_neg (by simp [hdec]), if_neg (by simp)]
  · intro a t d hdec
    unfold translateEntryStep
    rw [if_neg (by simp [hdec]), if_neg (by simp)]
  · intro a r2 hdec hr2
    unfold translateEntryStep
    rw [if_neg (by simp [hdec]), if_neg (by simp)]
    rcases hr2 with h | h <;> subst h <;> rfl

/-- C4 (witness): a concrete English title is translated; the failure
path retries once and keeps originals. -/
theorem c4_witness :
    translateEntryStep true (.translated (ustr "人工智能") none) .failed
        articleStrictFx =
      (applyTranslated articleStrictFx (ustr "人工智能") none,
       [.engineCall]) ∧
    translateEntryStep true .failed .failed articleStrictFx =
      (articleStrictFx, [.engineCall, .sleepMs300, .engineCall]) :=
  ⟨(c4_translation_decision.2.2.1 .failed articleStrictFx (ustr "人工智能")
      none (by decide)).1,
   c4_translation_decision.2.2.2.2 articleStrictFx .failed (by decide)
     (Or.inl rfl)⟩

/-! ## Quick-retry loop (`fetcher/mod.rs:376-460`, `repo/feeds.rs`) -/

structure FeedRow where
  failCount : Nat
  lastFetchAt : Option Int
  lastFetchStatus : Option Int
  lastEtag : Option (List Nat)
  title : Option (List Nat)
  siteUrl : Option (List Nat)
deriving DecidableEq

/-- `mark_not_modified`: stamp the fetch, reset `fail_count`. -/
def markNotModifiedRow (now : Int) (status : Int) (r : FeedRow) : FeedRow :=
  { r with
    lastFetchAt := some now
    lastFetchStatus := some status
    failCount := 0 }

/-- `mark_failure`: stamp the fetch, `fail_count = fail_count + 1`. -/
def markFailureRow (now : Int) (status : Int) (r : FeedRow) : FeedRow :=
  { r with
    lastFetchAt := some now
    lastFetchStatus := some status
    failCount := r.failCount + 1 }

/-- `mark_success`: stamp the fetch, store the etag, COALESCE title and
site URL, reset `fail_count`. -/
def markSuccessRow (now : Int) (status : Int) (etag : Option (List Nat))
    (title siteUrl : Option (List Nat)) (r : FeedRow) : FeedRow :=
  { r with
    lastFetchAt := some now
    lastFetchStatus := some status
    lastEtag := etag
    title := (match title with | some t => some t | none => r.title)
    siteUrl := (match siteUrl with | some u => some u | none => r.siteUrl)
    failCount := 0 }

/-- Outcome of one `process_feed_locked` attempt as seen by the feed row:
a full success (ends in `mark_success`), a 304 (ends in
`mark_not_modified`), an HTTP/parse failure that reaches
`record_failure` (persisted only when the attempt is the last one), or an
internal error that propagates without touching the row. -/
inductive AttemptOutcome where
  | okSuccess (status : Int) (etag : Option (List Nat))
      (title siteUrl : Option (List Nat))
  | okNotModified (status : Int)
  | errHttp (status : Int)
  | errInternal
deriving DecidableEq

def isFailOutcome : AttemptOutcome → Bool
  | .errHttp _ => true
  | .errInternal => true
  | _ => false

/-- Row effect of a successful attempt. -/
def applySuccessMark (now : Int) (o : AttemptOutcome) (r : FeedRow) :
    FeedRow :=
  match o with
  | .okSuccess s etag t su => markSuccessRow now s etag t su r
  | .okNotModified s => markNotModifiedRow now s r
  | _ => r

inductive RetryEvent where
  | attempt (i : Nat)
  | sleepBetween
deriving DecidableEq

def attemptsIn (evts : List RetryEvent) : Nat :=
  (evts.filter (fun e => match e with | .attempt _ => true | _ => false)).length

def sleepsIn (evts : List RetryEvent) : Nat :=
  (evts.filter (fun e => match e with | .sleepBetween => true | _ => false)).length

structure RetryResult where
  row : FeedRow
  ok : Bool
  events : List RetryEvent
deriving DecidableEq

/-- Prefix one failed non-final attempt (and the conditional sleep) onto
the remaining loop run. -/
def consAttempt (i : Nat) (delayZero : Bool) (k : RetryResult) :
    RetryResult :=
  ⟨k.row, k.ok,
   .attempt i :: (if delayZero then k.events else .sleepBetween :: k.events)⟩

/-- The attempt loop of `process_feed`: `remaining` counts the attempts
still allowed (`is_last ⟺ remaining = 1`); a success breaks; a failed
attempt persists `mark_failure` only when it is the last one; between a
non-final failure and the next attempt the loop sleeps
`quick_retry_delay` unless that delay is zero. -/
def processFeedRetryAux (now : Int) (outcomes : Nat → AttemptOutcome)
    (delayZero : Bool) : Nat → Nat → FeedRow → RetryResult
  | _, 0, r => ⟨r, false, []⟩
  | i, 1, r =>
    match outcomes i with
    | .okSuccess s etag t su =>
      ⟨markSuccessRow now s etag t su r, true, [.attempt i]⟩
    | .okNotModified s => ⟨markNotModifiedRow now s r, true, [.attempt i]⟩
    | .errHttp s => ⟨markFailureRow now s r, false, [.attempt i]⟩
    | .errInternal => ⟨r, false, [.attempt i]⟩
  | i, rem + 2, r =>
    match outcomes i with
    | .okSuccess s etag t su =>
      ⟨markSuccessRow now s etag t su r, true, [.attempt i]⟩
    | .okNotModified s => ⟨markNotModifiedRow now s r, true, [.attempt i]⟩
    | _ =>
      consAttempt i delayZero
        (processFeedRetryAux now outcomes delayZero (i + 1) (rem + 1) r)

/-- `process_feed`: `1 + quick_retry_attempts` attempts. -/
def processFeedRetry (now : Int) (outcomes : Nat → AttemptOutcome)
    (retryAttempts : Nat) (delayZero : Bool) (r : FeedRow) : RetryResult :=
  processFeedRetryAux now outcomes delayZero 0 (retryAttempts + 1) r

theorem attemptsIn_consAttempt (i : Nat) (dz : Bool) (k : RetryResult) :
    attemptsIn (consAttempt i dz k).events = attemptsIn k.events + 1 := by
  unfold consAttempt attemptsIn
  cases dz <;> simp

theorem sleepsIn_consAttempt (i : Nat) (dz : Bool) (k : RetryResult) :
    sleepsIn (consAttempt i dz k).events =
      sleepsIn k.events + (if dz then 0 else 1) := by
  unfold consAttempt sleepsIn
  cases dz <;> simp

theorem applySuccessMark_fields (now : Int) (o : AttemptOutcome) (r : FeedRow)
    (h : isFailOutcome o = false) :
    (applySuccessMark now o r).failCount = 0 ∧
    (applySuccessMark now o r).lastFetchAt = some now := by
  cases o <;> simp_all [isFailOutcome, applySuccessMark, markSuccessRow,
    markNotModifiedRow]

/-- The loop runs at most `remaining` attempts. -/
theorem processFeedRetryAux_attempts_le (now : Int)
    (outcomes : Nat → AttemptOutcome) (delayZero : Bool) :
    ∀ (rem i : Nat) (r : FeedRow),
      attemptsIn (processFeedRetryAux now outcomes delayZero i rem r).events
        ≤ rem := by
  intro rem
  induction rem with
  | zero => intro i r; simp [processFeedRetryAux, attemptsIn]
  | succ n ih =>
    intro i r
    cases n with
    | zero =>
      cases ho : outcomes i <;>
        simp [processFeedRetryAux, ho, attemptsIn]
    | succ m =>
      cases ho : outcomes i with
      | okSuccess s etag t su =>
        rw [processFeedRetryAux, ho]
        simp [attemptsIn]
      | okNotModified s =>
        rw [processFeedRetryAux, ho]
        simp [attemptsIn]
      | errHttp s =>
        rw [processFeedRetryAux, ho]
        rw [attemptsIn_consAttempt]
        have := ih (i + 1) r
        omega
      | errInternal =>
        rw [processFeedRetryAux, ho]
        rw [attemptsIn_consAttempt]
        have := ih (i + 1) r
        omega

/-- When every allowed attempt fails, the loop runs them all, sleeps
between consecutive attempts (when the delay is nonzero), returns the
error, and the feed row records exactly the last attempt's failure:
`mark_failure` for an HTTP-level failure, untouched otherwise. -/
theorem processFeedRetryAux_all_fail (now : Int)
    (outcomes : Nat → AttemptOutcome) (delayZero : Bool) :
    ∀ (rem i : Nat) (r : FeedRow),
      (∀ j, j ≤ rem → isFailOutcome (outcomes (i + j)) = true) →
      processFeedRetryAux now outcomes delayZero i (rem + 1) r =
        ⟨(match outcomes (i + rem) with
          | .errHttp s => markFailureRow now s r
          | _ => r), false,
         (processFeedRetryAux now outcomes delayZero i (rem + 1) r).events⟩ ∧
      attemptsIn
        (processFeedRetryAux now outcomes delayZero i (rem + 1) r).events =
        rem + 1 ∧
      sleepsIn
        (processFeedRetryAux now outcomes delayZero i (rem + 1) r).events =
        (if delayZero then 0 else rem) := by
  intro rem
  induction rem with
  | zero =>
    intro i r hall
    have h0 := hall 0 (by omega)
    simp only [Nat.add_zero] at h0
    cases ho : outcomes i with
    | okSuccess s etag t su => rw [ho] at h0; simp [isFailOutcome] at h0
    | okNotModified s => rw [ho] at h0; simp [isFailOutcome] at h0
    | errHttp s =>
      rw [processFeedRetryAux, ho]
      refine ⟨?_, ?_, ?_⟩
      · simp only [Nat.add_zero]
        rw [ho]
      · simp [attemptsIn]
      · cases delayZero <;> simp [sleepsIn]
    | errInternal =>
      rw [processFeedRetryAux, ho]
      refine ⟨?_, ?_, ?_⟩
      · simp only [Nat.add_zero]
        rw [ho]
      · simp [attemptsIn]
      · cases delayZero <;> simp [sleepsIn]
  | succ m ih =>
    intro i r hall
    have h0 := hall 0 (by omega)
    simp only [Nat.add_zero] at h0
    have hshift : ∀ j, j ≤ m → isFailOutcome (outcomes (i + 1 + j)) = true := by
      intro j hj
      have := hall (j + 1) (by omega)
      simpa [Nat.add_assoc, Nat.add_comm 1 j] using this
    have ihm := ih (i + 1) r hshift
    have hidx : i + 1 + m = i + (m + 1) := by omega
    cases ho : outcomes i with
    | okSuccess s etag t su => rw [ho] at h0; simp [isFailOutcome] at h0
    | okNotModified s => rw [ho] at h0; simp [isFailOutcome] at h0
    | errHttp s =>
      rw [processFeedRetryAux, ho]
      refine ⟨?_, ?_, ?_⟩
      · rw [← hidx]
        have hrow := congrArg RetryResult.row ihm.1
        have hok := congrArg RetryResult.ok ihm.1
        simp only at hrow hok
        show consAttempt i delayZero _ = _
        unfold consAttempt
        rw [hrow, hok]
      · rw [attemptsIn_consAttempt, ihm.2.1]
      · rw [sleepsIn_consAttempt, ihm.2.2]
        cases delayZero <;> simp
    | errInternal =>
      rw [processFeedRetryAux, ho]
      refine ⟨?_, ?_, ?_⟩
      · rw [← hidx]
        have hrow := congrArg RetryResult.row ihm.1
        have hok := congrArg RetryResult.ok ihm.1
        simp only at hrow hok
        show consAttempt i delayZero _ = _
        unfold consAttempt
        rw [hrow, hok]
      · rw [attemptsIn_consAttempt, ihm.2.1]
      · rw [sleepsIn_consAttempt, ihm.2.2]
        cases delayZero <;> simp

/-- The first successful attempt ends the loop: `k` failures, then one
success; the feed row is the success mark applied to the original row. -/
theorem processFeedRetryAux_first_success (now : Int)
    (outcomes : Nat → AttemptOutcome) (delayZero : Bool) :
    ∀ (k rem i : Nat) (r : FeedRow), k ≤ rem →
      (∀ j, j < k → isFailOutcome (outcomes (i + j)) = true) →
      isFailOutcome (outcomes (i + k)) = false →
      processFeedRetryAux now outcomes delayZero i (rem + 1) r =
        ⟨applySuccessMark now (outcomes (i + k)) r, true,
         (processFeedRetryAux now outcomes delayZero i (rem + 1) r).events⟩ ∧
      attemptsIn
        (processFeedRetryAux now outcomes delayZero i (rem + 1) r).events =
        k + 1 ∧
      sleepsIn
        (processFeedRetryAux now outcomes delayZero i (rem + 1) r).events =
        (if delayZero then 0 else k) := by
  intro k
  induction k with
  | zero =>
    intro rem i r _ _ hsucc
    simp only [Nat.add_zero] at hsucc
    cases rem with
    | zero =>
      cases ho : outcomes i <;> rw [ho] at hsucc <;>
        simp only [isFailOutcome] at hsucc <;>
        [skip; skip; exact absurd hsucc (by simp);
          exact absurd hsucc (by simp)] <;>
      · rw [processFeedRetryAux, ho]
        refine ⟨?_, by simp [attemptsIn], by cases delayZero <;> simp [sleepsIn]⟩
        simp only [Nat.add_zero]
        rw [ho]
        rfl
    | succ m =>
      cases ho : outcomes i <;> rw [ho] at hsucc <;>
        simp only [isFailOutcome] at hsucc <;>
        [skip; skip; exact absurd hsucc (by simp);
          exact absurd hsucc (by simp)] <;>
      · rw [processFeedRetryAux, ho]
        refine ⟨?_, by simp [attemptsIn], by cases delayZero <;> simp [sleepsIn]⟩
        simp only [Nat.add_zero]
        rw [ho]
        rfl
  | succ n ihn =>
    intro rem i r hle hfail hsucc
    cases rem with
    | zero => omega
    | succ m =>
      have h0 := hfail 0 (by omega)
      simp only [Nat.add_zero] at h0
      have hshift : ∀ j, j < n → isFailOutcome (outcomes (i + 1 + j)) = true := by
        intro j hj
        have := hfail (j + 1) (by omega)
        simpa [Nat.add_assoc, Nat.add_comm 1 j] using this
      have hsucc' : isFailOutcome (outcomes (i + 1 + n)) = false := by
        have hidx : i + 1 + n = i + (n + 1) := by omega
        rw [hidx]
        exact hsucc
      have ihm := ihn m (i + 1) r (by omega) hshift hsucc'
      have hidx : i + 1 + n = i + (n + 1) := by omega
      cases ho : outcomes i with
      | okSuccess s etag t su => rw [ho] at h0; simp [isFailOutcome] at h0
      | okNotModified s => rw [ho] at h0; simp [isFailOutcome] at h0
      | errHttp s =>
        rw [processFeedRetryAux, ho]
        refine ⟨?_, ?_, ?_⟩
        · rw [← hidx]
          have hrow := congrArg RetryResult.row ihm.1
          have hok := congrArg RetryResult.ok ihm.1
          simp only at hrow hok
          show consAttempt i delayZero _ = _
          unfold consAttempt
          rw [hrow, hok]
        · rw [attemptsIn_consAttempt, ihm.2.1]
        · rw [sleepsIn_consAttempt, ihm.2.2]
          cases delayZero <;> simp
      | errInternal =>
        rw [processFeedRetryAux, ho]
        refine ⟨?_, ?_, ?_⟩
        · rw [← hidx]
          have hrow := congrArg RetryResult.row ihm.1
          have hok := congrArg RetryResult.ok ihm.1
          simp only at hrow hok
          show consAttempt i delayZero _ = _
          unfold consAttempt
          rw [hrow, hok]
        · rw [attemptsIn_consAttempt, ihm.2.1]
        · rw [sleepsIn_consAttempt, ihm.2.2]
          cases delayZero <;> simp

/-- C6: `process_feed` runs at most `1 + quick_retry_attempts` attempts;
when all attempts fail, only the last attempt's failure is persisted
(`fail_count` incremented by exactly 1 from the original row; an
internal last failure leaves the row untouched), earlier failures leave
the row unchanged, and the loop sleeps between consecutive attempts when
the delay is nonzero; a first success at attempt `k` ends the loop with
the success mark applied to the original row (`fail_count = 0`,
`last_fetch_at` set). -/
theorem c6_quick_retry :
    (∀ (now : Int) (outcomes : Nat → AttemptOutcome) (ra : Nat) (dz : Bool)
       (r : FeedRow),
       attemptsIn (processFeedRetry now outcomes ra dz r).events ≤ ra + 1) ∧
    (∀ (now : Int) (outcomes : Nat → AttemptOutcome) (ra : Nat) (dz : Bool)
       (r : FeedRow),
       (∀ j, j ≤ ra → isFailOutcome (outcomes j) = true) →
       (processFeedRetry now outcomes ra dz r).ok = false ∧
       attemptsIn (processFeedRetry now outcomes ra dz r).events = ra + 1 ∧
       sleepsIn (processFeedRetry now outcomes ra dz r).events =
         (if dz then 0 else ra) ∧
       (∀ s, outcomes ra = .errHttp s →
         (processFeedRetry now outcomes ra dz r).row =
           markFailureRow now s r ∧
         (processFeedRetry now outcomes ra dz r).row.failCount =
           r.failCount + 1) ∧
       (outcomes ra = .errInternal →
         (processFeedRetry now outcomes ra dz r).row = r)) ∧
    (∀ (now : Int) (outcomes : Nat → AttemptOutcome) (ra : Nat) (dz : Bool)
       (r : FeedRow) (k : Nat), k ≤ ra →
       (∀ j, j < k → isFailOutcome (outcomes j) = true) →
       isFailOutcome (outcomes k) = false →
       (processFeedRetry now outcomes ra dz r).ok = true ∧
       (processFeedRetry now outcomes ra dz r).row =
         applySuccessMark now (outcomes k) r ∧
       (processFeedRetry now outcomes ra dz r).row.failCount = 0 ∧
       (processFeedRetry now outcomes ra dz r).row.lastFetchAt = some now ∧
       attemptsIn (processFeedRetry now outcomes ra dz r).events = k + 1 ∧
       sleepsIn (processFeedRetry now outcomes ra dz r).events =
         (if dz then 0 else k)) := by
  refine ⟨?_, ?_, ?_⟩
  · intro now outcomes ra dz r
    exact processFeedRetryAux_attempts_le now outcomes dz (ra + 1) 0 r
  · intro now outcomes ra dz r hall
    have h := processFeedRetryAux_all_fail now outcomes dz ra 0 r
      (by intro j hj; simpa using hall j hj)
    have hok := congrArg RetryResult.ok h.1
    have hrow := congrArg RetryResult.row h.1
    simp only at hok hrow
    simp only [Nat.zero_add] at hrow
    refine ⟨hok, h.2.1, h.2.2, ?_, ?_⟩
    · intro s hs
      rw [hs] at hrow
      rw [show (processFeedRetry now outcomes ra dz r).row =
        markFailureRow now s r from hrow]
      exact ⟨rfl, rfl⟩
    · intro hi
      rw [hi] at hrow
      exact hrow
  · intro now outcomes ra dz r k hk hfail hsucc
    have h := processFeedRetryAux_first_success now outcomes dz k ra 0 r hk
      (by intro j hj; simpa using hfail j hj) (by simpa using hsucc)
    have hok := congrArg RetryResult.ok h.1
    have hrow := congrArg RetryResult.row h.1
    simp only at hok hrow
    simp only [Nat.zero_add] at hrow
    have hfields := applySuccessMark_fields now (outcomes k) r hsucc
    refine ⟨hok, hrow, ?_, ?_, h.2.1, h.2.2⟩
    · rw [show (processFeedRetry now outcomes ra dz r).row =
        applySuccessMark now (outcomes k) r from hrow]
      exact hfields.1
    · rw [show (processFeedRetry now outcomes ra dz r).row =
        applySuccessMark now (outcomes k) r from hrow]
      exact hfields.2

def outcomesFx : Nat → AttemptOutcome :=
  fun i => if i = 0 then .errHttp 500 else .okNotModified 304

def feedRowFx : FeedRow := ⟨2, none, none, none, none, none⟩

/-- C6 (witness): with one quick retry, an HTTP failure followed by a 304
ends the loop after two attempts with fail_count reset. -/
theorem c6_witness :
    (processFeedRetry 100 outcomesFx 2 false feedRowFx).ok = true ∧
    (processFeedRetry 100 outcomesFx 2 false feedRowFx).row =
      applySuccessMark 100 (outcomesFx 1) feedRowFx ∧
    (processFeedRetry 100 outcomesFx 2 false feedRowFx).row.failCount = 0 ∧
    (processFeedRetry 100 outcomesFx 2 false feedRowFx).row.lastFetchAt =
      some 100 ∧
    attemptsIn (processFeedRetry 100 outcomesFx 2 false feedRowFx).events =
      1 + 1 ∧
    sleepsIn (processFeedRetry 100 outcomesFx 2 false feedRowFx).events =
      (if false then 0 else 1) :=
  c6_quick_retry.2.2 100 outcomesFx 2 false feedRowFx 1 (by decide)
    (by decide) (by decide)

/-! ## Feed deletion (`service/feeds.rs:160-202`,
`repo/feeds.rs`, `repo/articles.rs`, `repo/article_sources.rs`) -/

structure FeedRowDb where
  id : Int
  enabled : Bool
deriving DecidableEq

structure ArticleRowDb where
  id : Int
  feedId : Option Int
deriving DecidableEq

structure SourceRowDb where
  articleId : Int
  feedId : Option Int
deriving DecidableEq

structure Db where
  feeds : List FeedRowDb
  articles : List ArticleRowDb
  sources : List SourceRowDb
deriving DecidableEq

deriving instance DecidableEq for Except

/-- `disable_feed`: `SET enabled = FALSE WHERE id = $1`. -/
def disableFeedDb (id : Int) (db : Db) : Db :=
  { db with feeds := (db.feeds.map
      (fun f => if f.id = id then { f with enabled := false } else f)) }

/-- Rows affected by `disable_feed`. -/
def disableCount (id : Int) (db : Db) : Nat :=
  (db.feeds.filter (fun f => f.id == id)).length

/-- `article_sources::delete_by_feed`: `DELETE WHERE feed_id = $1`. -/
def deleteSourcesByFeed (id : Int) (db : Db) : Db :=
  { db with sources := db.sources.filter (fun s => !(s.feedId == some id)) }

/-- `articles::delete_by_feed`: `DELETE WHERE feed_id = $1`. -/
def deleteArticlesByFeed (id : Int) (db : Db) : Db :=
  { db with articles := db.articles.filter (fun a => !(a.feedId == some id)) }

/-- `feeds::delete_feed`: `DELETE WHERE id = $1`. -/
def deleteFeedDb (id : Int) (db : Db) : Db :=
  { db with feeds := db.feeds.filter (fun f => !(f.id == id)) }

/-- Failure oracle for the statements of the deletion transaction. -/
structure TxOracle where
  disableOk : Bool
  deleteSourcesOk : Bool
  deleteArticlesOk : Bool
  deleteFeedOk : Bool
  commitOk : Bool
deriving DecidableEq

/-- The deletion transaction: disable the feed (a zero row count rolls
back with BadRequest), delete provenance, delete articles, delete the
feed row, commit.  Any failing statement aborts with the transaction
dropped, so the database is unchanged unless the commit succeeds. -/
def runDeleteTx (db : Db) (o : TxOracle) (id : Int) : Except Unit Db :=
  if o.disableOk = false then .error ()
  else if disableCount id db = 0 then .error ()
  else if o.deleteSourcesOk = false then .error ()
  else if o.deleteArticlesOk = false then .error ()
  else if o.deleteFeedOk = false then .error ()
  else if o.commitOk = false then .error ()
  else .ok (deleteFeedDb id (deleteArticlesByFeed id
    (deleteSourcesByFeed id (disableFeedDb id db))))

inductive DeleteEvent where
  | acq (id : Int)
  | rel (id : Int)
deriving DecidableEq

/-- `service::feeds::delete` after the blocking lock acquisition: run the
transaction, release the lock on every path, surface the transaction
error, or a release error when the deletion itself succeeded. -/
def deleteFeedService (db : Db) (o : TxOracle) (id : Int)
    (releaseOk : Bool) : Except Unit Unit × Db × List DeleteEvent :=
  ((match runDeleteTx db o id, releaseOk with
    | .ok _, true => .ok ()
    | .ok _, false => .error ()
    | .error _, _ => .error ()),
   (match runDeleteTx db o id with
    | .ok db2 => db2
    | .error _ => db),
   [.acq id, .rel id])

/-- C7: feed deletion holds the processing lock around one transaction
(disable, delete provenance, delete articles, delete the feed row); any
transaction error leaves all three tables unchanged and is surfaced; the
lock release event closes every execution path; and after a successful
deletion no feed, article or provenance row carries the feed's id. -/
theorem c7_feed_deletion :
    (∀ (db : Db) (o : TxOracle) (id : Int) (releaseOk : Bool),
      (deleteFeedService db o id releaseOk).2.2 = [.acq id, .rel id]) ∧
    (∀ (db : Db) (o : TxOracle) (id : Int) (releaseOk : Bool),
      runDeleteTx db o id = .error () →
      (deleteFeedService db o id releaseOk).2.1 = db ∧
      (deleteFeedService db o id releaseOk).1 = .error ()) ∧
    (∀ (db db2 : Db) (o : TxOracle) (id : Int) (releaseOk : Bool),
      runDeleteTx db o id = .ok db2 →
      (deleteFeedService db o id releaseOk).2.1 = db2 ∧
      (∀ f ∈ db2.feeds, f.id ≠ id) ∧
      (∀ a ∈ db2.articles, a.feedId ≠ some id) ∧
      (∀ s ∈ db2.sources, s.feedId ≠ some id) ∧
      (releaseOk = true →
        (deleteFeedService db o id releaseOk).1 = .ok ())) := by
  refine ⟨?_, ?_, ?_⟩
  · intro db o id releaseOk
    rfl
  · intro db o id releaseOk h
    unfold deleteFeedService
    rw [h]
    exact ⟨rfl, rfl⟩
  · intro db db2 o id releaseOk h
    have hdb2 : db2 = deleteFeedDb id (deleteArticlesByFeed id
        (deleteSourcesByFeed id (disableFeedDb id db))) := by
      unfold runDeleteTx at h
      split at h
      · exact absurd h (by simp)
      · split at h
        · exact absurd h (by simp)
        · split at h
          · exact absurd h (by simp)
          · split at h
            · exact absurd h (by simp)
            · split at h
              · exact absurd h (by simp)
              · split at h
                · exact absurd h (by simp)
                · injection h with h
                  exact h.symm
    refine ⟨?_, ?_, ?_, ?_, ?_⟩
    · unfold deleteFeedService
      rw [h]
    · intro f hf
      rw [hdb2] at hf
      have := List.of_mem_filter hf
      simpa using this
    · intro a ha
      rw [hdb2] at ha
      unfold deleteFeedDb at ha
      simp only at ha
      have := List.of_mem_filter ha
      simpa using this
    · intro s hs
      rw [hdb2] at hs
      unfold deleteFeedDb deleteArticlesByFeed at hs
      simp only at hs
      have := List.of_mem_filter hs
      simpa using this
    · intro hrel
      unfold deleteFeedService
      rw [h, hrel]

def dbFx : Db :=
  ⟨[⟨1, true⟩, ⟨2, true⟩],
   [⟨10, some 1⟩, ⟨11, some 2⟩],
   [⟨10, some 1⟩, ⟨11, some 2⟩]⟩

def txOkFx : TxOracle := ⟨true, true, true, true, true⟩

/-- C7 (witness): deleting feed 1 from a two-feed database leaves no row
carrying feed id 1. -/
theorem c7_witness :
    (deleteFeedService dbFx txOkFx 1 true).2.1 =
      ⟨[⟨2, true⟩], [⟨11, some 2⟩], [⟨11, some 2⟩]⟩ ∧
    (∀ a ∈ (⟨[⟨2, true⟩], [⟨11, some 2⟩], [⟨11, some 2⟩]⟩ : Db).articles,
      a.feedId ≠ some 1) ∧
    (deleteFeedService dbFx txOkFx 1 true).1 = .ok () :=
  have h := c7_feed_deletion.2.2 dbFx
    ⟨[⟨2, true⟩], [⟨11, some 2⟩], [⟨11, some 2⟩]⟩ txOkFx 1 true (by decide)
  ⟨h.1, h.2.2.1, h.2.2.2.2 rfl⟩

/-! ## Feed upsert and filter-condition validation
(`service/feeds.rs:22-156`, `:295-315`) -/

/-- Byte-wise prefix test. -/
def leadsWith : List Nat → List Nat → Bool
  | [], _ => true
  | _ :: _, [] => false
  | a :: as, b :: bs => a == b && leadsWith as bs

/-- `str::contains` for a literal needle. -/
def containsSub (needle : List Nat) : List Nat → Bool
  | [] => leadsWith needle []
  | c :: rest => leadsWith needle (c :: rest) || containsSub needle rest

/-- `u8/char::to_ascii_lowercase`. -/
def asciiLower (c : Nat) : Nat :=
  if 65 ≤ c ∧ c ≤ 90 then c + 32 else c

def asciiLowerStr (l : List Nat) : List Nat :=
  l.map asciiLower

/-- `str::trim`. -/
def trimWs (l : List Nat) : List Nat :=
  ((l.dropWhile charIsWhitespace).reverse.dropWhile charIsWhitespace).reverse

/-- `validate_filter_condition`: reject `;`, `--`, `/*`, `*/` anywhere,
the lowercased substrings `"drop "`, `"alter "`, `"insert "`,
`"update "`, `"delete "` (each with a trailing space), and the
placeholders `$1`, `$2`, `$3`. -/
def validateFilterCondition (cond : List Nat) : Bool :=
  if containsSub (ustr ";") cond || containsSub (ustr "--") cond ||
      containsSub (ustr "/*") cond || containsSub (ustr "*/") cond then
    false
  else if containsSub (ustr "drop ") (asciiLowerStr cond) ||
      containsSub (ustr "alter ") (asciiLowerStr cond) ||
      containsSub (ustr "insert ") (asciiLowerStr cond) ||
      containsSub (ustr "update ") (asciiLowerStr cond) ||
      containsSub (ustr "delete ") (asciiLowerStr cond) then
    false
  else if containsSub (ustr "$1") (asciiLowerStr cond) ||
      containsSub (ustr "$2") (asciiLowerStr cond) ||
      containsSub (ustr "$3") (asciiLowerStr cond) then
    false
  else true

/-- The denylist as the claim words it: any of the comment/statement
separators, any DML keyword (bare, case-insensitive), or any positional
placeholder `$<digit>`. -/
def hasPositionalPlaceholder : List Nat → Bool
  | [] => false
  | [_] => false
  | a :: b :: rest =>
    (a == 36 && charIsAsciiDigit b) || hasPositionalPlaceholder (b :: rest)

def claimDenylisted (cond : List Nat) : Bool :=
  containsSub (ustr ";") cond || containsSub (ustr "--") cond ||
  containsSub (ustr "/*") cond || containsSub (ustr "*/") cond ||
  containsSub (ustr "drop") (asciiLowerStr cond) ||
  containsSub (ustr "alter") (asciiLowerStr cond) ||
  containsSub (ustr "insert") (asciiLowerStr cond) ||
  containsSub (ustr "update") (asciiLowerStr cond) ||
  containsSub (ustr "delete") (asciiLowerStr cond) ||
  hasPositionalPlaceholder cond

/-- The denylist the source actually enforces, as one predicate. -/
def amendedDenylisted (cond : List Nat) : Bool :=
  containsSub (ustr ";") cond || containsSub (ustr "--") cond ||
  containsSub (ustr "/*") cond || containsSub (ustr "*/") cond ||
  containsSub (ustr "drop ") (asciiLowerStr cond) ||
  containsSub (ustr "alter ") (asciiLowerStr cond) ||
  containsSub (ustr "insert ") (asciiLowerStr cond) ||
  containsSub (ustr "update ") (asciiLowerStr cond) ||
  containsSub (ustr "delete ") (asciiLowerStr cond) ||
  containsSub (ustr "$1") (asciiLowerStr cond) ||
  containsSub (ustr "$2") (asciiLowerStr cond) ||
  containsSub (ustr "$3") (asciiLowerStr cond)

structure FeedUpsertPayload where
  url : List Nat
  sourceDomain : List Nat
  filterCondition : Option (List Nat)
deriving DecidableEq

inductive UpsertEffect where
  | findByUrl
  | upsertFeed
  | applyFilter
deriving DecidableEq

inductive UpsertResult where
  | badRequest
  | ok
deriving DecidableEq

/-- Empty-or-whitespace filter conditions are normalized to `None`. -/
def normalizeCondition (fc : Option (List Nat)) : Option (List Nat) :=
  match fc with
  | none => none
  | some raw => if trimWs raw = [] then none else some (trimWs raw)

/-- `condition_changed`: the previous trimmed condition differs or the
feed (or its condition) did not exist. -/
def conditionChanged (existing : Option (Option (List Nat)))
    (c : List Nat) : Bool :=
  match existing with
  | none => true
  | some none => true
  | some (some prev) => decide (trimWs prev ≠ c)

/-- Source-domain resolution: an empty input falls back to the domain
inferred from the URL (oracle; `BadRequest` when inference fails),
otherwise the trimmed input is ASCII-lowercased. -/
def resolveDomain (inferredDomain : Option (List Nat)) (sd : List Nat) :
    Option (List Nat) :=
  if trimWs sd = [] then inferredDomain
  else some (asciiLowerStr (trimWs sd))

/-- `service::feeds::upsert` up to its database effects: validation
failures return `BadRequest` before any lookup, upsert or filter
deletion; a valid payload looks up the feed, upserts it, and applies the
filter condition when it changed. -/
def upsertFeedService (inferredDomain : Option (List Nat))
    (existing : Option (Option (List Nat))) (p : FeedUpsertPayload) :
    UpsertResult × List UpsertEffect :=
  if trimWs p.url = [] then (.badRequest, [])
  else
    match resolveDomain inferredDomain p.sourceDomain with
    | none => (.badRequest, [])
    | some domain =>
      if domain = [] then (.badRequest, [])
      else
        match normalizeCondition p.filterCondition with
        | some c =>
          if validateFilterCondition c = false then (.badRequest, [])
          else
            (.ok, [.findByUrl, .upsertFeed] ++
              (if conditionChanged existing c then [.applyFilter] else []))
        | none => (.ok, [.findByUrl, .upsertFeed])

/-- C8 (amended): a non-empty filter condition that the source's denylist
rejects — `;`, `--`, `/*`, `*/`, a DML keyword followed by a space
(lowercased), or one of the placeholders `$1`/`$2`/`$3` — makes the
upsert return `BadRequest` with no feed lookup, no upsert and no filter
`DELETE`; and the source's check equals exactly that denylist. -/
theorem c8_filter_validation_amended :
    (∀ (inferredDomain : Option (List Nat))
       (existing : Option (Option (List Nat))) (p : FeedUpsertPayload)
       (c : List Nat),
       normalizeCondition p.filterCondition = some c →
       validateFilterCondition c = false →
       upsertFeedService inferredDomain existing p = (.badRequest, [])) ∧
    (∀ c, validateFilterCondition c = false ↔ amendedDenylisted c = true) := by
  constructor
  · intro inferredDomain existing p c hc hv
    unfold upsertFeedService
    split
    · rfl
    · split
      · rfl
      · split
        · rfl
        · simp [hc, hv]
  · intro c
    unfold validateFilterCondition amendedDenylisted
    constructor
    · intro h
      split at h
      · rename_i h1
        simp only [Bool.or_eq_true] at h1 ⊢
        tauto
      · split at h
        · rename_i h2
          simp only [Bool.or_eq_true] at h2 ⊢
          tauto
        · split at h
          · rename_i h3
            simp only [Bool.or_eq_true] at h3 ⊢
            tauto
          · exact absurd h (by simp)
    · intro h
      split
      · rfl
      · split
        · rfl
        · split
          · rfl
          · rename_i h1 h2 h3
            simp only [Bool.or_eq_true] at h h1 h2 h3
            tauto

/-- C8 (counterexample): the condition `"$4"` contains a positional
placeholder, yet the upsert accepts it and proceeds to the database. -/
theorem c8_counterexample :
    claimDenylisted (ustr "$4") = true ∧
    upsertFeedService (some (ustr "feed.example")) none
        ⟨ustr "https://feed.example/rss", ustr "feed.example",
         some (ustr "$4")⟩ =
      (.ok, [.findByUrl, .upsertFeed, .applyFilter]) := by
  constructor
  · decide
  · decide

/-- C8 (witness): a condition containing a semicolon is rejected with no
database effect. -/
theorem c8_witness :
    upsertFeedService (some (ustr "feed.example")) none
        ⟨ustr "https://feed.example/rss", ustr "feed.example",
         some (ustr "1=1; drop table news.articles")⟩ =
      (.badRequest, []) :=
  c8_filter_validation_amended.1 (some (ustr "feed.example")) none
    ⟨ustr "https://feed.example/rss", ustr "feed.example",
     some (ustr "1=1; drop table news.articles")⟩
    (ustr "1=1; drop table news.articles") (by decide) (by decide)

/-! ## URL normalization (`util/url_norm.rs`)

The `url` crate is embedded over the grammar
`scheme "://" host [":" port] [path] ["?" query] ["#" fragment]` with
already-normalized components: lowercase ASCII scheme letters, a host
free of `:/?#`, a decimal port, a path starting with `/` and free of
`?#`, and an ASCII query.  Inputs outside this subset fail to parse; the
normalizer's own outputs always lie in it, which is what the idempotence
claim needs. -/

def isSchemeChar (c : Nat) : Bool :=
  97 ≤ c && c ≤ 122

def isHostChar (c : Nat) : Bool :=
  !(c == 58 || c == 47 || c == 63 || c == 35)

def isPathChar (c : Nat) : Bool :=
  !(c == 63 || c == 35)

def isQueryChar (c : Nat) : Bool :=
  !(c == 35) && c < 256

structure Url where
  scheme : List Nat
  host : List Nat
  port : Option Nat
  path : List Nat
  query : Option (List Nat)
  fragment : Option (List Nat)
deriving DecidableEq

/-- Digit-string value (big-endian). -/
def natOfDigits (ds : List Nat) : Nat :=
  Nat.ofDigits 10 ((ds.map (fun d => d - 48)).reverse)

/-- Decimal representation (no leading zeros; `0` is `"0"`). -/
def natToDigits (n : Nat) : List Nat :=
  if n = 0 then [48] else (Nat.digits 10 n).reverse.map (fun d => d + 48)

def parseQF (scheme host : List Nat) (port : Option Nat) (path : List Nat) :
    List Nat → Option Url
  | [] => some ⟨scheme, host, port, path, none, none⟩
  | 63 :: cs =>
    if (cs.takeWhile (fun c => !(c == 35))).all (fun c => c < 256) then
      match cs.drop (cs.takeWhile (fun c => !(c == 35))).length with
      | [] =>
        some ⟨scheme, host, port, path,
          some (cs.takeWhile (fun c => !(c == 35))), none⟩
      | 35 :: fs =>
        some ⟨scheme, host, port, path,
          some (cs.takeWhile (fun c => !(c == 35))), some fs⟩
      | _ => none
    else none
  | 35 :: fs => some ⟨scheme, host, port, path, none, some fs⟩
  | _ => none

def parsePath (scheme host : List Nat) (port : Option Nat) :
    List Nat → Option Url
  | [] => some ⟨scheme, host, port, [47], none, none⟩
  | 47 :: cs =>
    parseQF scheme host port ((47 :: cs).takeWhile isPathChar)
      ((47 :: cs).drop ((47 :: cs).takeWhile isPathChar).length)
  | 63 :: cs => parseQF scheme host port [47] (63 :: cs)
  | 35 :: fs => parseQF scheme host port [47] (35 :: fs)
  | _ => none

def parseAfterHost (scheme host : List Nat) : List Nat → Option Url
  | 58 :: cs =>
    if (cs.takeWhile charIsAsciiDigit) = [] then none
    else
      parsePath scheme host (some (natOfDigits (cs.takeWhile charIsAsciiDigit)))
        (cs.drop (cs.takeWhile charIsAsciiDigit).length)
  | rest => parsePath scheme host none rest

def parseUrl (l : List Nat) : Option Url :=
  if l.takeWhile isSchemeChar = [] then none
  else if !leadsWith (ustr "://") (l.drop (l.takeWhile isSchemeChar).length)
  then none
  else
    if ((l.drop (l.takeWhile isSchemeChar).length).drop 3).takeWhile
        isHostChar = [] then none
    else
      parseAfterHost (l.takeWhile isSchemeChar)
        (((l.drop (l.takeWhile isSchemeChar).length).drop 3).takeWhile
          isHostChar)
        (((l.drop (l.takeWhile isSchemeChar).length).drop 3).drop
          ((((l.drop (l.takeWhile isSchemeChar).length)).drop 3).takeWhile
            isHostChar).length)

def urlToString (u : Url) : List Nat :=
  u.scheme ++ ustr "://" ++ u.host ++
  (match u.port with | some p => 58 :: natToDigits p | none => []) ++
  u.path ++
  (match u.query with | some q => 63 :: q | none => []) ++
  (match u.fragment with | some f => 35 :: f | none => [])

/-! Query-pair machinery (`form_urlencoded`). -/

def splitSep (sep : Nat) : List Nat → List (List Nat)
  | [] => [[]]
  | c :: rest =>
    match splitSep sep rest with
    | [] => [[c]]
    | r :: rs => if c = sep then [] :: r :: rs else (c :: r) :: rs

def joinSep (sep : Nat) : List (List Nat) → List Nat
  | [] => []
  | [w] => w
  | w :: rest₁ :: rest₂ => w ++ sep :: joinSep sep (rest₁ :: rest₂)

/-- Split a piece at the first `=`; a piece without `=` is all name. -/
def splitFirstEq (piece : List Nat) : List Nat × List Nat :=
  (piece.takeWhile (fun c => !(c == 61)),
   match piece.drop (piece.takeWhile (fun c => !(c == 61))).length with
   | [] => []
   | _ :: v => v)

def isHexDigitChar (c : Nat) : Bool :=
  (48 ≤ c && c ≤ 57) || (65 ≤ c && c ≤ 70) || (97 ≤ c && c ≤ 102)

def hexVal (c : Nat) : Nat :=
  if c ≤ 57 then c - 48 else if c ≤ 70 then c - 55 else c - 87

/-- Percent- and plus-decoding of one form component: `+` is a space, a
`%` followed by two hex digits is the encoded byte, anything else is a
literal. -/
def formDecode : List Nat → List Nat
  | [] => []
  | c :: rest =>
    if c = 43 then 32 :: formDecode rest
    else if c = 37 then
      match rest with
      | h :: l :: rest₂ =>
        if isHexDigitChar h && isHexDigitChar l then
          (16 * hexVal h + hexVal l) :: formDecode rest₂
        else c :: formDecode (h :: l :: rest₂)
      | [h] => c :: formDecode [h]
      | [] => [c]
    else c :: formDecode rest

def isFormUnreserved (b : Nat) : Bool :=
  (48 ≤ b && b ≤ 57) || (65 ≤ b && b ≤ 90) || (97 ≤ b && b ≤ 122) ||
  b == 42 || b == 45 || b == 46 || b == 95

def hexDigitChar (n : Nat) : Nat :=
  if n < 10 then n + 48 else n + 55

/-- `form_urlencoded` byte serialization: unreserved bytes unchanged,
space as `+`, the rest percent-encoded in uppercase hex. -/
def formEncodeByte (b : Nat) : List Nat :=
  if isFormUnreserved b then [b]
  else if b = 32 then [43]
  else [37, hexDigitChar (b / 16), hexDigitChar (b % 16)]

def formEncode (l : List Nat) : List Nat :=
  (l.map formEncodeByte).flatten

def decodePiece (piece : List Nat) : List Nat × List Nat :=
  (formDecode (splitFirstEq piece).1, formDecode (splitFirstEq piece).2)

/-- `Url::query_pairs`: `&`-separated pieces, empty pieces skipped, each
split at the first `=` and decoded. -/
def queryPairs (q : List Nat) : List (List Nat × List Nat) :=
  (splitSep 38 q).filterMap
    (fun piece => if piece = [] then none else some (decodePiece piece))

def encodePair (kv : List Nat × List Nat) : List Nat :=
  formEncode kv.1 ++ 61 :: formEncode kv.2

/-- `query_pairs_mut().append_pair` for every pair. -/
def encodePairs (ps : List (List Nat × List Nat)) : List Nat :=
  joinSep 38 (ps.map encodePair)

/-- `is_tracking_param`: exact lowercase match or lowercase prefix. -/
def isTrackingParam (k : List Nat) : Bool :=
  asciiLowerStr k == ustr "fbclid" || asciiLowerStr k == ustr "gclid" ||
  asciiLowerStr k == ustr "yclid" || asciiLowerStr k == ustr "cmp" ||
  asciiLowerStr k == ustr "ref" || asciiLowerStr k == ustr "referrer" ||
  asciiLowerStr k == ustr "source" ||
  leadsWith (ustr "utm_") (asciiLowerStr k) ||
  leadsWith (ustr "spm") (asciiLowerStr k) ||
  leadsWith (ustr "_hs") (asciiLowerStr k) ||
  leadsWith (ustr "mc_") (asciiLowerStr k) ||
  leadsWith (ustr "icn") (asciiLowerStr k) ||
  leadsWith (ustr "icp") (asciiLowerStr k)

/-! Pair sorting (`sort_by(|a, b| a.0.cmp(&b.0).then(a.1.cmp(&b.1)))`). -/

def bytesLt : List Nat → List Nat → Bool
  | [], [] => false
  | [], _ :: _ => true
  | _ :: _, [] => false
  | x :: xs, y :: ys => x < y || (x == y && bytesLt xs ys)

/-- Key order first, value order on ties (`≤` of the comparator). -/
def pairLe (a b : List Nat × List Nat) : Bool :=
  bytesLt a.1 b.1 ||
  (a.1 == b.1 && (bytesLt a.2 b.2 || a.2 == b.2))

def insertPair (x : List Nat × List Nat) :
    List (List Nat × List Nat) → List (List Nat × List Nat)
  | [] => [x]
  | y :: ys => if pairLe x y then x :: y :: ys else y :: insertPair x ys

def sortPairs (ps : List (List Nat × List Nat)) :
    List (List Nat × List Nat) :=
  ps.foldr insertPair []

/-! The normalizer itself. -/

/-- Default-port removal (`url_norm.rs:16-22`). -/
def normalizePort (scheme : List Nat) (port : Option Nat) : Option Nat :=
  match port with
  | none => none
  | some p =>
    if (scheme = ustr "http" ∧ p = 80) ∨ (scheme = ustr "https" ∧ p = 443)
    then none else some p

/-- Filtered, sorted, re-encoded query (`url_norm.rs:24-42`). -/
def normalizeQuery (q : Option (List Nat)) : Option (List Nat) :=
  if ((queryPairs (match q with | some s => s | none => [])).filter
      (fun kv => !isTrackingParam kv.1)) = [] then none
  else some (encodePairs (sortPairs
    ((queryPairs (match q with | some s => s | none => [])).filter
      (fun kv => !isTrackingParam kv.1))))

def trimTrailingSlashes (p : List Nat) : List Nat :=
  ((p.reverse.dropWhile (fun c => c == 47)).reverse)

/-- `trimmed_path`: `None` when the path is `/` or already trim-free;
`Some "/"` when trimming empties it. -/
def trimmedPath (p : List Nat) : Option (List Nat) :=
  if p = [47] then none
  else if trimTrailingSlashes p = [] then some [47]
  else if trimTrailingSlashes p = p then none
  else some (trimTrailingSlashes p)

def normalizePath (p : List Nat) : List Nat :=
  match trimmedPath p with
  | none => p
  | some t => t

/-- The four normalization steps on a parsed URL: drop the fragment,
drop a default port, filter/sort/re-encode the query, trim the path. -/
def normalizeUrlStruct (u : Url) : Url :=
  { scheme := u.scheme
    host := u.host
    port := normalizePort u.scheme u.port
    path := normalizePath u.path
    query := normalizeQuery u.query
    fragment := none }

/-- `normalize_article_url` (on the parsing subset). -/
def normalizeArticleUrl (l : List Nat) : Option (List Nat) :=
  (parseUrl l).map (fun u => urlToString (normalizeUrlStruct u))

/-! Lemmas towards idempotence (claim C10). -/

theorem takeWhile_append_eq (p : Nat → Bool) :
    ∀ (xs rest : List Nat), (∀ c ∈ xs, p c = true) →
      (rest = [] ∨ ∃ y ys, rest = y :: ys ∧ p y = false) →
      (xs ++ rest).takeWhile p = xs := by
  intro xs
  induction xs with
  | nil =>
    intro rest _ hrest
    rcases hrest with h | ⟨y, ys, h, hy⟩
    · simp [h]
    · subst h
      simp [List.takeWhile_cons, hy]
  | cons x xs ih =>
    intro rest hxs hrest
    have hx : p x = true := hxs x (List.mem_cons_self x xs)
    simp only [List.cons_append, List.takeWhile_cons, hx, if_true]
    rw [ih rest (fun c hc => hxs c (List.mem_cons_of_mem x hc)) hrest]

theorem drop_append_len (xs rest : List Nat) :
    (xs ++ rest).drop xs.length = rest := by
  simp

theorem natToDigits_ne_nil (n : Nat) : natToDigits n ≠ [] := by
  unfold natToDigits
  by_cases h : n = 0
  · simp [h]
  · rw [if_neg h]
    intro hcon
    simp only [List.map_eq_nil_iff, List.reverse_eq_nil_iff] at hcon
    exact h (Nat.digits_eq_nil_iff_eq_zero.mp hcon)

theorem natToDigits_digits (n : Nat) :
    ∀ c ∈ natToDigits n, charIsAsciiDigit c = true := by
  intro c hc
  unfold natToDigits at hc
  by_cases h : n = 0
  · rw [if_pos h] at hc
    simp only [List.mem_singleton] at hc
    subst hc
    decide
  · rw [if_neg h] at hc
    simp only [List.mem_map, List.mem_reverse] at hc
    obtain ⟨d, hd, hdc⟩ := hc
    have : d < 10 := Nat.digits_lt_base (by omega) hd
    subst hdc
    simp only [charIsAsciiDigit, Bool.and_eq_true, decide_eq_true_eq]
    omega

theorem natOfDigits_natToDigits (n : Nat) :
    natOfDigits (natToDigits n) = n := by
  unfold natOfDigits natToDigits
  by_cases h : n = 0
  · simp [h, Nat.ofDigits]
  · rw [if_neg h]
    rw [List.map_map, ← List.map_reverse, List.reverse_reverse]
    have : ((fun d => d - 48) ∘ fun d => d + 48) = id := by
      funext d
      simp
    rw [this, List.map_id]
    exact Nat.ofDigits_digits 10 n

theorem hexVal_hexDigitChar (m : Nat) (h : m < 16) :
    isHexDigitChar (hexDigitChar m) = true ∧ hexVal (hexDigitChar m) = m := by
  unfold isHexDigitChar hexDigitChar hexVal
  by_cases hm : m < 10
  · rw [if_pos hm]
    constructor
    · simp only [Bool.or_eq_true, Bool.and_eq_true, decide_eq_true_eq]
      omega
    · rw [if_pos (by omega)]
      omega
  · rw [if_neg hm]
    constructor
    · simp only [Bool.or_eq_true, Bool.and_eq_true, decide_eq_true_eq]
      omega
    · rw [if_neg (by omega), if_pos (by omega)]
      omega

/-- Every character emitted by the byte serializer is a safe ASCII query
character distinct from the `&`, `=` and `+`-decoding-relevant
separators needed for an exact re-parse. -/
theorem formEncodeByte_chars (b : Nat) (hb : b < 256) :
    ∀ c ∈ formEncodeByte b,
      c ≠ 38 ∧ c ≠ 61 ∧ c ≠ 35 ∧ c < 256 := by
  intro c hc
  unfold formEncodeByte at hc
  split at hc
  · rename_i hb
    simp only [List.mem_singleton] at hc
    subst hc
    simp only [isFormUnreserved, Bool.or_eq_true, Bool.and_eq_true,
      beq_iff_eq, decide_eq_true_eq] at hb
    omega
  · split at hc
    · simp only [List.mem_singleton] at hc
      omega
    · simp only [List.mem_cons, List.mem_singleton] at hc
      have h16 : b % 16 < 16 := Nat.mod_lt _ (by omega)
      rcases hc with hc | hc | hc
      · omega
      · subst hc
        unfold hexDigitChar
        split <;> omega
      · rcases hc with hc | hc
        · subst hc
          unfold hexDigitChar
          split <;> omega
        · simp at hc

theorem formDecode_encodeByte (b : Nat) (hb : b < 256) (rest : List Nat) :
    formDecode (formEncodeByte b ++ rest) = b :: formDecode rest := by
  unfold formEncodeByte
  split
  · rename_i hun
    simp only [isFormUnreserved, Bool.or_eq_true, Bool.and_eq_true,
      beq_iff_eq, decide_eq_true_eq] at hun
    show formDecode (b :: rest) = b :: formDecode rest
    rw [formDecode.eq_def]
    simp only []
    rw [if_neg (by omega), if_neg (by omega)]
  · split
    · rename_i hsp
      subst hsp
      show formDecode (43 :: rest) = 32 :: formDecode rest
      rw [formDecode.eq_def]
      simp
    · show formDecode (37 :: hexDigitChar (b / 16) ::
        hexDigitChar (b % 16) :: rest) = b :: formDecode rest
      have hhi := hexVal_hexDigitChar (b / 16) (by omega)
      have hlo := hexVal_hexDigitChar (b % 16) (Nat.mod_lt _ (by omega))
      rw [formDecode.eq_def]
      simp only [show ¬((37 : Nat) = 43) from by decide, if_false,
        show ((37 : Nat) = 37) from rfl, if_true, hhi.1, hlo.1,
        Bool.and_self, hhi.2, hlo.2]
      congr 1
      omega

theorem formDecode_formEncode (l : List Nat) (h : ∀ b ∈ l, b < 256) :
    formDecode (formEncode l) = l := by
  induction l with
  | nil => rfl
  | cons b bs ih =>
    unfold formEncode
    simp only [List.map_cons, List.flatten_cons]
    rw [formDecode_encodeByte b (h b (List.mem_cons_self b bs)) _]
    rw [show (List.map formEncodeByte bs).flatten = formEncode bs from rfl]
    rw [ih (fun x hx => h x (List.mem_cons_of_mem b hx))]

theorem splitSep_ne_nil (sep : Nat) : ∀ l, splitSep sep l ≠ [] := by
  intro l
  induction l with
  | nil => simp [splitSep]
  | cons c rest ih =>
    rw [splitSep]
    cases hs : splitSep sep rest with
    | nil => simp
    | cons r rs =>
      simp only []
      by_cases hc : c = sep
      · rw [if_pos hc]; simp
      · rw [if_neg hc]; simp

theorem splitSep_sepfree_append (sep : Nat) :
    ∀ (w : List Nat), (∀ c ∈ w, c ≠ sep) →
      ∀ (l : List Nat) (r : List Nat) (rs : List (List Nat)),
        splitSep sep l = r :: rs →
        splitSep sep (w ++ l) = (w ++ r) :: rs := by
  intro w
  induction w with
  | nil => intro _ l r rs h; simpa using h
  | cons c cs ih =>
    intro hw l r rs h
    have hc : c ≠ sep := hw c (List.mem_cons_self c cs)
    show splitSep sep (c :: (cs ++ l)) = _
    rw [splitSep]
    rw [ih (fun x hx => hw x (List.mem_cons_of_mem c hx)) l r rs h]
    simp only []
    rw [if_neg hc]
    simp

theorem splitSep_cons_sep (sep : Nat) (l : List Nat) :
    splitSep sep (sep :: l) = [] :: splitSep sep l := by
  rw [splitSep]
  cases hs : splitSep sep l with
  | nil => exact absurd hs (splitSep_ne_nil sep l)
  | cons r rs =>
    simp

theorem splitSep_joinSep (sep : Nat) :
    ∀ (parts : List (List Nat)), parts ≠ [] →
      (∀ w ∈ parts, ∀ c ∈ w, c ≠ sep) →
      splitSep sep (joinSep sep parts) = parts := by
  intro parts
  induction parts with
  | nil => intro h; exact absurd rfl h
  | cons w rest ih =>
    intro _ hfree
    have hw := hfree w (List.mem_cons_self w rest)
    cases rest with
    | nil =>
      show splitSep sep (joinSep sep [w]) = [w]
      unfold joinSep
      have : splitSep sep (w ++ []) = (w ++ []) :: [] :=
        splitSep_sepfree_append sep w hw [] [] [] rfl
      simpa using this
    | cons r rs =>
      show splitSep sep (w ++ sep :: joinSep sep (r :: rs)) = w :: r :: rs
      have hrest := ih (by simp) (fun x hx c hc =>
        hfree x (List.mem_cons_of_mem w hx) c hc)
      have hsplit : splitSep sep (sep :: joinSep sep (r :: rs)) =
          [] :: r :: rs := by
        rw [splitSep_cons_sep, hrest]
      have := splitSep_sepfree_append sep w hw _ [] (r :: rs) hsplit
      simpa using this

theorem formEncode_chars (l : List Nat) (h : ∀ b ∈ l, b < 256) :
    ∀ c ∈ formEncode l, c ≠ 38 ∧ c ≠ 61 ∧ c ≠ 35 ∧ c < 256 := by
  intro c hc
  unfold formEncode at hc
  simp only [List.mem_flatten, List.mem_map] at hc
  obtain ⟨bl, ⟨b, hb, hbl⟩, hcbl⟩ := hc
  subst hbl
  exact formEncodeByte_chars b (h b hb) c hcbl

theorem splitFirstEq_encodePair (kv : List Nat × List Nat)
    (h1 : ∀ b ∈ kv.1, b < 256) :
    splitFirstEq (encodePair kv) = (formEncode kv.1, formEncode kv.2) := by
  unfold splitFirstEq encodePair
  have htw : ((formEncode kv.1 ++ 61 :: formEncode kv.2).takeWhile
      (fun c => !(c == 61))) = formEncode kv.1 := by
    refine takeWhile_append_eq _ _ _ ?_ ?_
    · intro c hc
      have := (formEncode_chars kv.1 h1 c hc).2.1
      simp [this]
    · exact Or.inr ⟨61, formEncode kv.2, rfl, by simp⟩
  rw [htw, drop_append_len]

theorem decodePiece_encodePair (kv : List Nat × List Nat)
    (h1 : ∀ b ∈ kv.1, b < 256) (h2 : ∀ b ∈ kv.2, b < 256) :
    decodePiece (encodePair kv) = kv := by
  unfold decodePiece
  rw [splitFirstEq_encodePair kv h1]
  rw [formDecode_formEncode kv.1 h1, formDecode_formEncode kv.2 h2]

theorem encodePair_ne_nil (kv : List Nat × List Nat) :
    encodePair kv ≠ [] := by
  unfold encodePair
  simp

theorem encodePair_sepfree (kv : List Nat × List Nat)
    (h1 : ∀ b ∈ kv.1, b < 256) (h2 : ∀ b ∈ kv.2, b < 256) :
    ∀ c ∈ encodePair kv, c ≠ 38 := by
  intro c hc
  unfold encodePair at hc
  rcases List.mem_append.mp hc with hc | hc
  · exact (formEncode_chars kv.1 h1 c hc).1
  · rcases List.mem_cons.mp hc with hc | hc
    · omega
    · exact (formEncode_chars kv.2 h2 c hc).1

/-- Decoding the freshly encoded pair list recovers it exactly. -/
theorem queryPairs_encodePairs (ps : List (List Nat × List Nat))
    (hne : ps ≠ [])
    (hb : ∀ kv ∈ ps, (∀ b ∈ kv.1, b < 256) ∧ ∀ b ∈ kv.2, b < 256) :
    queryPairs (encodePairs ps) = ps := by
  unfold queryPairs encodePairs
  rw [splitSep_joinSep 38 (ps.map encodePair) (by simpa using hne) ?hfree]
  case hfree =>
    intro w hw c hc
    simp only [List.mem_map] at hw
    obtain ⟨kv, hkv, hw⟩ := hw
    subst hw
    exact encodePair_sepfree kv (hb kv hkv).1 (hb kv hkv).2 c hc
  induction ps with
  | nil => rfl
  | cons kv rest ih =>
    simp only [List.map_cons, List.filterMap_cons]
    rw [if_neg (by simpa using encodePair_ne_nil kv)]
    rw [decodePiece_encodePair kv (hb kv (List.mem_cons_self kv rest)).1
      (hb kv (List.mem_cons_self kv rest)).2]
    by_cases hrest : rest = []
    · subst hrest; rfl
    · rw [ih hrest (fun x hx => hb x (List.mem_cons_of_mem kv hx))]

theorem mem_insertPair (x a : List Nat × List Nat) :
    ∀ l, a ∈ insertPair x l ↔ a = x ∨ a ∈ l := by
  intro l
  induction l with
  | nil => simp [insertPair]
  | cons y ys ih =>
    unfold insertPair
    split
    · simp
    · simp only [List.mem_cons, ih]
      tauto

theorem length_insertPair (x : List Nat × List Nat) :
    ∀ l, (insertPair x l).length = l.length + 1 := by
  intro l
  induction l with
  | nil => rfl
  | cons y ys ih =>
    unfold insertPair
    split
    · simp
    · simp [ih]

theorem mem_sortPairs (a : List Nat × List Nat) :
    ∀ l, a ∈ sortPairs l ↔ a ∈ l := by
  intro l
  induction l with
  | nil => simp [sortPairs]
  | cons x xs ih =>
    show a ∈ insertPair x (sortPairs xs) ↔ _
    rw [mem_insertPair, ih]
    simp [eq_comm]

theorem length_sortPairs : ∀ l, (sortPairs l).length = l.length := by
  intro l
  induction l with
  | nil => rfl
  | cons x xs ih =>
    show (insertPair x (sortPairs xs)).length = _
    rw [length_insertPair, ih]
    rfl

theorem bytesLt_trichotomy : ∀ a b : List Nat,
    bytesLt a b = true ∨ a = b ∨ bytesLt b a = true := by
  intro a
  induction a with
  | nil =>
    intro b
    cases b with
    | nil => exact Or.inr (Or.inl rfl)
    | cons y ys => exact Or.inl rfl
  | cons x xs ih =>
    intro b
    cases b with
    | nil => exact Or.inr (Or.inr rfl)
    | cons y ys =>
      rcases Nat.lt_trichotomy x y with h | h | h
      · refine Or.inl ?_
        unfold bytesLt
        simp [h]
      · subst h
        rcases ih ys with h2 | h2 | h2
        · refine Or.inl ?_
          unfold bytesLt
          simp [h2]
        · subst h2
          exact Or.inr (Or.inl rfl)
        · refine Or.inr (Or.inr ?_)
          unfold bytesLt
          simp [h2]
      · refine Or.inr (Or.inr ?_)
        unfold bytesLt
        simp [h]

theorem pairLe_total (a b : List Nat × List Nat)
    (h : pairLe a b = false) : pairLe b a = true := by
  unfold pairLe at h ⊢
  rcases bytesLt_trichotomy a.1 b.1 with h1 | h1 | h1
  · rw [h1] at h
    simp at h
  · rcases bytesLt_trichotomy a.2 b.2 with h3 | h3 | h3
    · rw [h1] at h
      simp [h3] at h
    · rw [h1, h3] at h
      simp at h
    · rw [h1]
      simp [h3]
  · simp [h1]

def pairsChain (l : List (List Nat × List Nat)) : Prop :=
  List.Chain' (fun a b => pairLe a b = true) l

theorem insertPair_chain (x : List Nat × List Nat) :
    ∀ l, pairsChain l → pairsChain (insertPair x l) := by
  intro l
  induction l with
  | nil => intro _; simp [insertPair, pairsChain]
  | cons y ys ih =>
    intro hl
    unfold insertPair
    split
    · rename_i hle
      exact List.Chain'.cons hle hl
    · rename_i hle
      have hyx : pairLe y x = true :=
        pairLe_total x y (Bool.eq_false_iff.mpr hle)
      have hys : pairsChain ys := hl.tail
      have hins := ih hys
      cases hys2 : ys with
      | nil =>
        subst hys2
        show pairsChain [y, x]
        exact List.chain'_pair.mpr hyx
      | cons z zs =>
        subst hys2
        show pairsChain (y :: insertPair x (z :: zs))
        unfold insertPair
        split
        · rename_i hxz
          refine List.Chain'.cons hyx ?_
          exact List.Chain'.cons hxz hl.tail
        · refine List.Chain'.cons ?_ ?_
          · rcases List.chain'_cons.mp hl with ⟨hyz, _⟩
            exact hyz
          · have := ih hl.tail
            unfold insertPair at this
            rw [if_neg (by rename_i hxz; exact hxz)] at this
            exact this

theorem sortPairs_chain : ∀ l, pairsChain (sortPairs l) := by
  intro l
  induction l with
  | nil => simp [sortPairs, pairsChain]
  | cons x xs ih =>
    show pairsChain (insertPair x (sortPairs xs))
    exact insertPair_chain x (sortPairs xs) ih

theorem sortPairs_of_chain : ∀ l, pairsChain l → sortPairs l = l := by
  intro l
  induction l with
  | nil => intro _; rfl
  | cons x xs ih =>
    intro hl
    show insertPair x (sortPairs xs) = x :: xs
    rw [ih hl.tail]
    cases xs with
    | nil => rfl
    | cons y ys =>
      unfold insertPair
      rw [if_pos (List.chain'_cons.mp hl).1]

theorem sortPairs_idem (l : List (List Nat × List Nat)) :
    sortPairs (sortPairs l) = sortPairs l :=
  sortPairs_of_chain (sortPairs l) (sortPairs_chain l)

theorem leadsWith_append_self :
    ∀ (p r : List Nat), leadsWith p (p ++ r) = true := by
  intro p
  induction p with
  | nil => intro r; rfl
  | cons a as ih =>
    intro r
    show (a == a && leadsWith as (as ++ r)) = true
    simp [ih]

theorem dropWhile_head_false (p : Nat → Bool) :
    ∀ (l : List Nat) c cs, l.dropWhile p = c :: cs → p c = false := by
  intro l
  induction l with
  | nil =>
    intro c cs h
    simp [List.dropWhile] at h
  | cons x xs ih =>
    intro c cs h
    rw [List.dropWhile_cons] at h
    split at h
    · exact ih c cs h
    · rename_i hx
      injection h with h1 _
      subst h1
      exact Bool.eq_false_iff.mpr hx

theorem trimTrailingSlashes_idem (p : List Nat) :
    trimTrailingSlashes (trimTrailingSlashes p) = trimTrailingSlashes p := by
  unfold trimTrailingSlashes
  rw [List.reverse_reverse]
  cases h : p.reverse.dropWhile (fun c => c == 47) with
  | nil => simp
  | cons c cs =>
    have hc : (c == 47) = false :=
      dropWhile_head_false (fun c => c == 47) p.reverse c cs h
    rw [List.dropWhile_cons]
    simp [hc]

theorem trimTrailingSlashes_ne_single47 (p : List Nat) :
    trimTrailingSlashes p ≠ [47] := by
  intro h
  have h2 : p.reverse.dropWhile (fun c => c == 47) = [47] := by
    have h3 := congrArg List.reverse h
    unfold trimTrailingSlashes at h3
    rw [List.reverse_reverse] at h3
    simpa using h3
  have hf := dropWhile_head_false (fun c => c == 47) p.reverse 47 [] h2
  simp at hf

theorem trimTrailingSlashes_prefix (p : List Nat) :
    trimTrailingSlashes p <+: p := by
  unfold trimTrailingSlashes
  have hsuf : p.reverse.dropWhile (fun c => c == 47) <:+ p.reverse :=
    List.dropWhile_suffix _
  have h2 := List.reverse_prefix.mpr hsuf
  rwa [List.reverse_reverse] at h2

theorem trimmedPath_normalizePath (p : List Nat) :
    trimmedPath (normalizePath p) = none := by
  unfold normalizePath
  cases htp : trimmedPath p with
  | none => simpa using htp
  | some t =>
    unfold trimmedPath at htp
    split at htp
    · cases htp
    · split at htp
      · injection htp with ht
        subst ht
        rfl
      · split at htp
        · cases htp
        · injection htp with ht
          subst ht
          rename_i h1 h2 h3
          unfold trimmedPath
          rw [if_neg (trimTrailingSlashes_ne_single47 p),
            if_neg (by rw [trimTrailingSlashes_idem]; exact h2),
            if_pos (trimTrailingSlashes_idem p)]

theorem normalizePath_idem (p : List Nat) :
    normalizePath (normalizePath p) = normalizePath p := by
  have h := trimmedPath_normalizePath p
  generalize hq : normalizePath p = q at h ⊢
  unfold normalizePath
  rw [h]

theorem trimmedPath_head (p r t : List Nat) (h : p = 47 :: r)
    (htp : trimmedPath p = some t) : ∃ s, t = 47 :: s := by
  unfold trimmedPath at htp
  split at htp
  · cases htp
  · split at htp
    · injection htp with ht
      subst ht
      exact ⟨[], rfl⟩
    · split at htp
      · cases htp
      · injection htp with ht
        subst ht
        rename_i h1 h2 h3
        rcases trimTrailingSlashes_prefix p with ⟨tail, hpre⟩
        cases htt : trimTrailingSlashes p with
        | nil => exact absurd htt h2
        | cons c cs =>
          refine ⟨cs, ?_⟩
          rw [htt] at hpre
          rw [h] at hpre
          have hc : c = 47 := by
            have h4 := congrArg (fun l => l.headD 0) hpre
            simpa using h4
          rw [hc]

theorem trimmedPath_mem (p t : List Nat) (htp : trimmedPath p = some t) :
    ∀ c ∈ t, c = 47 ∨ c ∈ p := by
  intro c hc
  unfold trimmedPath at htp
  split at htp
  · cases htp
  · split at htp
    · injection htp with ht
      subst ht
      simp at hc
      exact Or.inl hc
    · split at htp
      · cases htp
      · injection htp with ht
        subst ht
        rcases trimTrailingSlashes_prefix p with ⟨tail, hpre⟩
        refine Or.inr ?_
        rw [← hpre]
        exact List.mem_append.mpr (Or.inl hc)

theorem normalizePath_head (p : List Nat) (r : List Nat)
    (h : p = 47 :: r) : ∃ s, normalizePath p = 47 :: s := by
  unfold normalizePath
  cases htp : trimmedPath p with
  | none => exact ⟨r, h⟩
  | some t => exact trimmedPath_head p r t h htp

theorem normalizePath_mem (p : List Nat) :
    ∀ c ∈ normalizePath p, c = 47 ∨ c ∈ p := by
  intro c hc
  unfold normalizePath at hc
  cases htp : trimmedPath p with
  | none =>
    rw [htp] at hc
    exact Or.inr hc
  | some t =>
    rw [htp] at hc
    exact trimmedPath_mem p t htp c hc

theorem hexVal_lt (c : Nat) (h : isHexDigitChar c = true) : hexVal c < 16 := by
  unfold isHexDigitChar at h
  simp only [Bool.or_eq_true, Bool.and_eq_true, decide_eq_true_eq] at h
  unfold hexVal
  split
  · omega
  · split
    · omega
    · omega

theorem formDecode_cons43 (rest : List Nat) :
    formDecode (43 :: rest) = 32 :: formDecode rest := by
  rw [formDecode.eq_def]
  simp

theorem formDecode_cons_other (c : Nat) (rest : List Nat) (h1 : c ≠ 43)
    (h2 : c ≠ 37) : formDecode (c :: rest) = c :: formDecode rest := by
  rw [formDecode.eq_def]
  simp [h1, h2]

theorem formDecode_hex (h l : Nat) (rest : List Nat)
    (hh : (isHexDigitChar h && isHexDigitChar l) = true) :
    formDecode (37 :: h :: l :: rest) =
      (16 * hexVal h + hexVal l) :: formDecode rest := by
  rw [formDecode.eq_def]
  simp [hh]

theorem formDecode_hexfail (h l : Nat) (rest : List Nat)
    (hh : (isHexDigitChar h && isHexDigitChar l) = false) :
    formDecode (37 :: h :: l :: rest) = 37 :: formDecode (h :: l :: rest) := by
  rw [formDecode.eq_def]
  simp [hh]

theorem formDecode_37single (h : Nat) :
    formDecode [37, h] = 37 :: formDecode [h] := by
  rw [formDecode.eq_def]
  simp

theorem formDecode_37nil : formDecode [37] = [37] := by
  rw [formDecode.eq_def]
  simp

theorem formDecode_bytes (l : List Nat) (hb : ∀ b ∈ l, b < 256) :
    ∀ c ∈ formDecode l, c < 256 := by
  induction l using formDecode.induct with
  | case1 =>
    intro c hc
    simp [formDecode] at hc
  | case2 rest ih =>
    intro c hc
    rw [formDecode_cons43] at hc
    rcases List.mem_cons.mp hc with h | h
    · omega
    · exact ih (fun b hb2 => hb b (List.mem_cons_of_mem 43 hb2)) c h
  | case3 hd ld rest hh _ ih =>
    intro c hc
    rw [formDecode_hex hd ld rest hh] at hc
    rcases List.mem_cons.mp hc with h | h
    · simp only [Bool.and_eq_true] at hh
      obtain ⟨hh1, hh2⟩ := hh
      have b1 := hexVal_lt hd hh1
      have b2 := hexVal_lt ld hh2
      omega
    · refine ih (fun b hb2 => hb b ?_) c h
      simp [hb2]
  | case4 hd ld rest hh _ ih =>
    intro c hc
    rw [formDecode_hexfail hd ld rest (Bool.eq_false_iff.mpr hh)] at hc
    rcases List.mem_cons.mp hc with h | h
    · omega
    · exact ih (fun b hb2 => hb b (List.mem_cons_of_mem 37 hb2)) c h
  | case5 hd _ ih =>
    intro c hc
    rw [formDecode_37single hd] at hc
    rcases List.mem_cons.mp hc with h | h
    · omega
    · exact ih (fun b hb2 => hb b (List.mem_cons_of_mem 37 hb2)) c h
  | case6 =>
    intro c hc
    rw [formDecode_37nil] at hc
    rcases List.mem_cons.mp hc with h | h
    · omega
    · simp at h
  | case7 c0 rest h43 h37 ih =>
    intro c hc
    rw [formDecode_cons_other c0 rest h43 h37] at hc
    rcases List.mem_cons.mp hc with h | h
    · subst h
      exact hb c (List.mem_cons_self c rest)
    · exact ih (fun b hb2 => hb b (List.mem_cons_of_mem c0 hb2)) c h

theorem splitSep_mem (sep : Nat) :
    ∀ (l : List Nat), ∀ w ∈ splitSep sep l, ∀ c ∈ w, c ∈ l := by
  intro l
  induction l with
  | nil =>
    intro w hw c hc
    simp [splitSep] at hw
    subst hw
    simp at hc
  | cons a rest ih =>
    intro w hw c hc
    rw [splitSep] at hw
    cases hs : splitSep sep rest with
    | nil => exact absurd hs (splitSep_ne_nil sep rest)
    | cons r rs =>
      rw [hs] at hw
      simp only [] at hw
      by_cases hsep : a = sep
      · rw [if_pos hsep] at hw
        rcases List.mem_cons.mp hw with h | h
        · subst h
          simp at hc
        · have := ih w (by rw [hs]; exact h) c hc
          exact List.mem_cons_of_mem a this
      · rw [if_neg hsep] at hw
        rcases List.mem_cons.mp hw with h | h
        · subst h
          rcases List.mem_cons.mp hc with h2 | h2
          · subst h2
            exact List.mem_cons_self _ _
          · have := ih r (by rw [hs]; exact List.mem_cons_self r rs) c h2
            exact List.mem_cons_of_mem a this
        · have := ih w (by rw [hs]; exact List.mem_cons_of_mem r h) c hc
          exact List.mem_cons_of_mem a this

theorem splitFirstEq_mem (piece : List Nat) :
    (∀ c ∈ (splitFirstEq piece).1, c ∈ piece) ∧
    (∀ c ∈ (splitFirstEq piece).2, c ∈ piece) := by
  constructor
  · intro c hc
    exact (List.takeWhile_prefix _).sublist.mem hc
  · intro c hc
    unfold splitFirstEq at hc
    simp only [] at hc
    cases hdrop :
        piece.drop (piece.takeWhile (fun c => !(c == 61))).length with
    | nil =>
      rw [hdrop] at hc
      simp at hc
    | cons x v =>
      rw [hdrop] at hc
      simp only [] at hc
      have hm : c ∈ piece.drop
          (piece.takeWhile (fun c => !(c == 61))).length := by
        rw [hdrop]
        exact List.mem_cons_of_mem x hc
      exact List.mem_of_mem_drop hm

theorem queryPairs_bytes (q : List Nat) (hb : ∀ b ∈ q, b < 256) :
    ∀ kv ∈ queryPairs q, (∀ b ∈ kv.1, b < 256) ∧ (∀ b ∈ kv.2, b < 256) := by
  intro kv hkv
  unfold queryPairs at hkv
  rw [List.mem_filterMap] at hkv
  obtain ⟨piece, hpiece, hdec⟩ := hkv
  by_cases hp : piece = []
  · rw [if_pos hp] at hdec
    cases hdec
  · rw [if_neg hp] at hdec
    injection hdec with hdec
    subst hdec
    have hpb : ∀ b ∈ piece, b < 256 := fun b hbp =>
      hb b (splitSep_mem 38 q piece hpiece b hbp)
    simp only [decodePiece]
    constructor
    · exact formDecode_bytes _
        (fun b hb2 => hpb b ((splitFirstEq_mem piece).1 b hb2))
    · exact formDecode_bytes _
        (fun b hb2 => hpb b ((splitFirstEq_mem piece).2 b hb2))

theorem joinSep_mem (sep : Nat) :
    ∀ (parts : List (List Nat)), ∀ c ∈ joinSep sep parts,
      c = sep ∨ ∃ w ∈ parts, c ∈ w := by
  intro parts
  induction parts with
  | nil =>
    intro c hc
    simp [joinSep] at hc
  | cons w rest ih =>
    intro c hc
    cases rest with
    | nil =>
      refine Or.inr ⟨w, List.mem_cons_self w [], ?_⟩
      simpa [joinSep] using hc
    | cons w2 rest2 =>
      rw [joinSep] at hc
      rcases List.mem_append.mp hc with h | h
      · exact Or.inr ⟨w, List.mem_cons_self _ _, h⟩
      · rcases List.mem_cons.mp h with h2 | h2
        · exact Or.inl h2
        · rcases ih c h2 with h3 | ⟨v, hv, hcv⟩
          · exact Or.inl h3
          · exact Or.inr ⟨v, List.mem_cons_of_mem w hv, hcv⟩

theorem encodePairs_queryChars (ps : List (List Nat × List Nat))
    (hb : ∀ kv ∈ ps, (∀ b ∈ kv.1, b < 256) ∧ (∀ b ∈ kv.2, b < 256)) :
    ∀ c ∈ encodePairs ps, isQueryChar c = true := by
  intro c hc
  unfold encodePairs at hc
  rcases joinSep_mem 38 (ps.map encodePair) c hc with h | ⟨w, hw, hcw⟩
  · subst h
    rfl
  · obtain ⟨kv, hkv, hwkv⟩ := List.mem_map.mp hw
    subst hwkv
    unfold encodePair at hcw
    have hq : c ≠ 35 ∧ c < 256 := by
      rcases List.mem_append.mp hcw with h2 | h2
      · have h3 := formEncode_chars kv.1 (hb kv hkv).1 c h2
        exact ⟨h3.2.2.1, h3.2.2.2⟩
      · rcases List.mem_cons.mp h2 with h3 | h3
        · subst h3
          exact ⟨by omega, by omega⟩
        · have h4 := formEncode_chars kv.2 (hb kv hkv).2 c h3
          exact ⟨h4.2.2.1, h4.2.2.2⟩
    unfold isQueryChar
    have h35 : (c == 35) = false := by
      simp [hq.1]
    simp [h35, hq.2]

theorem queryPairs_nil : queryPairs [] = [] := rfl

theorem normalizeQuery_none : normalizeQuery none = none := rfl

theorem normalizeQuery_stable (q : Option (List Nat))
    (hb : ∀ s, q = some s → ∀ b ∈ s, b < 256) :
    normalizeQuery (normalizeQuery q) = normalizeQuery q := by
  cases q with
  | none => rfl
  | some s =>
    have hbs : ∀ b ∈ s, b < 256 := hb s rfl
    by_cases hps : (queryPairs s).filter (fun kv => !isTrackingParam kv.1) = []
    · have h1 : normalizeQuery (some s) = none := by
        unfold normalizeQuery
        simp only []
        rw [if_pos hps]
      rw [h1]
      rfl
    · have h1 : normalizeQuery (some s) = some (encodePairs (sortPairs
          ((queryPairs s).filter (fun kv => !isTrackingParam kv.1)))) := by
        unfold normalizeQuery
        simp only []
        rw [if_neg hps]
      rw [h1]
      have hsne : sortPairs
          ((queryPairs s).filter (fun kv => !isTrackingParam kv.1)) ≠ [] := by
        intro h
        apply hps
        have hlen := length_sortPairs
          ((queryPairs s).filter (fun kv => !isTrackingParam kv.1))
        rw [h] at hlen
        exact List.length_eq_zero.mp hlen.symm
      have hbytes : ∀ kv ∈ sortPairs
          ((queryPairs s).filter (fun kv => !isTrackingParam kv.1)),
          (∀ b ∈ kv.1, b < 256) ∧ ∀ b ∈ kv.2, b < 256 := by
        intro kv hkv
        have h2 := (mem_sortPairs kv _).mp hkv
        exact queryPairs_bytes s hbs kv (List.mem_of_mem_filter h2)
      have hq := queryPairs_encodePairs _ hsne hbytes
      have hfilter : ((sortPairs ((queryPairs s).filter
          (fun kv => !isTrackingParam kv.1))).filter
          (fun kv => !isTrackingParam kv.1)) = sortPairs
          ((queryPairs s).filter (fun kv => !isTrackingParam kv.1)) := by
        rw [List.filter_eq_self]
        intro kv hkv
        have h2 : kv ∈ (queryPairs s).filter
            (fun kv => !isTrackingParam kv.1) :=
          (mem_sortPairs kv _).mp hkv
        exact (List.mem_filter.mp h2).2
      unfold normalizeQuery
      simp only []
      rw [hq, hfilter, if_neg hsne, sortPairs_idem]

theorem parseQF_nil (scheme host : List Nat) (port : Option Nat)
    (path : List Nat) :
    parseQF scheme host port path [] =
      some ⟨scheme, host, port, path, none, none⟩ := rfl

theorem parseQF_query_only (scheme host : List Nat) (port : Option Nat)
    (path cs : List Nat) (hall : ∀ c ∈ cs, isQueryChar c = true) :
    parseQF scheme host port path (63 :: cs) =
      some ⟨scheme, host, port, path, some cs, none⟩ := by
  have h35 : ∀ c ∈ cs, (!(c == 35)) = true := fun c hc => by
    have h2 := hall c hc
    simp only [isQueryChar, Bool.and_eq_true] at h2
    exact h2.1
  have htwq : cs.takeWhile (fun c => !(c == 35)) = cs := by
    have h1 := takeWhile_append_eq (fun c => !(c == 35)) cs [] h35 (Or.inl rfl)
    rwa [List.append_nil] at h1
  have h256 : ∀ c ∈ cs, decide (c < 256) = true := fun c hc => by
    have h2 := hall c hc
    simp only [isQueryChar, Bool.and_eq_true] at h2
    exact h2.2
  have hcond : cs.all (fun c => decide (c < 256)) = true :=
    List.all_eq_true.mpr h256
  rw [parseQF.eq_def]
  simp [htwq, hcond, List.drop_length]

theorem parsePath_cons47 (scheme host : List Nat) (port : Option Nat)
    (cs : List Nat) :
    parsePath scheme host port (47 :: cs) =
      parseQF scheme host port ((47 :: cs).takeWhile isPathChar)
        ((47 :: cs).drop ((47 :: cs).takeWhile isPathChar).length) := rfl

theorem parseAfterHost_cons58 (scheme host cs : List Nat) :
    parseAfterHost scheme host (58 :: cs) =
      if cs.takeWhile charIsAsciiDigit = [] then none
      else parsePath scheme host
        (some (natOfDigits (cs.takeWhile charIsAsciiDigit)))
        (cs.drop (cs.takeWhile charIsAsciiDigit).length) := rfl

theorem parseAfterHost_cons47 (scheme host cs : List Nat) :
    parseAfterHost scheme host (47 :: cs) =
      parsePath scheme host none (47 :: cs) := rfl

theorem parseQF_props (scheme host : List Nat) (port : Option Nat)
    (path rest : List Nat) (u : Url)
    (h : parseQF scheme host port path rest = some u) :
    u.scheme = scheme ∧ u.host = host ∧ u.port = port ∧ u.path = path ∧
    (∀ s, u.query = some s → ∀ c ∈ s, isQueryChar c = true) := by
  rw [parseQF.eq_def] at h
  split at h
  · injection h with h
    subst h
    exact ⟨rfl, rfl, rfl, rfl, fun s hs => by cases hs⟩
  · rename_i cs
    split at h
    · rename_i hall
      split at h
      · injection h with h
        subst h
        refine ⟨rfl, rfl, rfl, rfl, ?_⟩
        intro s hs c hc
        injection hs with hs
        subst hs
        have h35 : (!(c == 35)) = true :=
          List.mem_takeWhile_imp (p := fun c => !(c == 35)) hc
        have h256 : decide (c < 256) = true :=
          List.all_eq_true.mp hall c hc
        simp only [isQueryChar, Bool.and_eq_true]
        exact ⟨h35, h256⟩
      · rename_i fs
        injection h with h
        subst h
        refine ⟨rfl, rfl, rfl, rfl, ?_⟩
        intro s hs c hc
        injection hs with hs
        subst hs
        have h35 : (!(c == 35)) = true :=
          List.mem_takeWhile_imp (p := fun c => !(c == 35)) hc
        have h256 : decide (c < 256) = true :=
          List.all_eq_true.mp hall c hc
        simp only [isQueryChar, Bool.and_eq_true]
        exact ⟨h35, h256⟩
      · cases h
    · cases h
  · injection h with h
    subst h
    exact ⟨rfl, rfl, rfl, rfl, fun s hs => by cases hs⟩
  · cases h

theorem parsePath_props (scheme host : List Nat) (port : Option Nat)
    (rest : List Nat) (u : Url)
    (h : parsePath scheme host port rest = some u) :
    u.scheme = scheme ∧ u.host = host ∧ u.port = port ∧
    (∃ r, u.path = 47 :: r) ∧ (∀ c ∈ u.path, isPathChar c = true) ∧
    (∀ s, u.query = some s → ∀ c ∈ s, isQueryChar c = true) := by
  rw [parsePath.eq_def] at h
  split at h
  · injection h with h
    subst h
    refine ⟨rfl, rfl, rfl, ⟨[], rfl⟩, ?_, fun s hs => by cases hs⟩
    intro c hc
    simp at hc
    subst hc
    rfl
  · rename_i cs
    have hq := parseQF_props _ _ _ _ _ _ h
    refine ⟨hq.1, hq.2.1, hq.2.2.1, ?_, ?_, hq.2.2.2.2⟩
    · rw [hq.2.2.2.1]
      refine ⟨cs.takeWhile isPathChar, ?_⟩
      rw [List.takeWhile_cons]
      simp [isPathChar]
    · rw [hq.2.2.2.1]
      intro c hc
      exact List.mem_takeWhile_imp hc
  · rename_i cs
    have hq := parseQF_props _ _ _ _ _ _ h
    refine ⟨hq.1, hq.2.1, hq.2.2.1, ⟨[], hq.2.2.2.1⟩, ?_, hq.2.2.2.2⟩
    rw [hq.2.2.2.1]
    intro c hc
    simp at hc
    subst hc
    rfl
  · rename_i fs
    have hq := parseQF_props _ _ _ _ _ _ h
    refine ⟨hq.1, hq.2.1, hq.2.2.1, ⟨[], hq.2.2.2.1⟩, ?_, hq.2.2.2.2⟩
    rw [hq.2.2.2.1]
    intro c hc
    simp at hc
    subst hc
    rfl
  · cases h

theorem parseAfterHost_props (scheme host rest : List Nat) (u : Url)
    (h : parseAfterHost scheme host rest = some u) :
    u.scheme = scheme ∧ u.host = host ∧
    (∃ r, u.path = 47 :: r) ∧ (∀ c ∈ u.path, isPathChar c = true) ∧
    (∀ s, u.query = some s → ∀ c ∈ s, isQueryChar c = true) := by
  rw [parseAfterHost.eq_def] at h
  split at h
  · split at h
    · cases h
    · have hp := parsePath_props _ _ _ _ _ h
      exact ⟨hp.1, hp.2.1, hp.2.2.2.1, hp.2.2.2.2.1, hp.2.2.2.2.2⟩
  · have hp := parsePath_props _ _ _ _ _ h
    exact ⟨hp.1, hp.2.1, hp.2.2.2.1, hp.2.2.2.2.1, hp.2.2.2.2.2⟩

theorem parseUrl_wf (l : List Nat) (u : Url) (h : parseUrl l = some u) :
    u.scheme ≠ [] ∧ (∀ c ∈ u.scheme, isSchemeChar c = true) ∧
    u.host ≠ [] ∧ (∀ c ∈ u.host, isHostChar c = true) ∧
    (∃ r, u.path = 47 :: r) ∧ (∀ c ∈ u.path, isPathChar c = true) ∧
    (∀ s, u.query = some s → ∀ c ∈ s, isQueryChar c = true) := by
  unfold parseUrl at h
  split at h
  · cases h
  · split at h
    · cases h
    · split at h
      · cases h
      · rename_i h1 h2 h3
        have hp := parseAfterHost_props _ _ _ _ h
        refine ⟨?_, ?_, ?_, ?_, hp.2.2.1, hp.2.2.2.1, hp.2.2.2.2⟩
        · rw [hp.1]
          exact h1
        · rw [hp.1]
          intro c hc
          exact List.mem_takeWhile_imp hc
        · rw [hp.2.1]
          exact h3
        · rw [hp.2.1]
          intro c hc
          exact List.mem_takeWhile_imp hc

theorem parseUrl_append (sch rest : List Nat) (hs : sch ≠ [])
    (hsc : ∀ c ∈ sch, isSchemeChar c = true) :
    parseUrl (sch ++ (58 :: 47 :: 47 :: rest)) =
      if rest.takeWhile isHostChar = [] then none
      else parseAfterHost sch (rest.takeWhile isHostChar)
        (rest.drop (rest.takeWhile isHostChar).length) := by
  have hsep : ustr "://" = [58, 47, 47] := by decide
  have htw : (sch ++ (58 :: 47 :: 47 :: rest)).takeWhile isSchemeChar = sch :=
    takeWhile_append_eq _ _ _ hsc (Or.inr ⟨58, _, rfl, by decide⟩)
  unfold parseUrl
  rw [htw, if_neg hs]
  have hdrop : (sch ++ (58 :: 47 :: 47 :: rest)).drop sch.length =
      58 :: 47 :: 47 :: rest := drop_append_len sch _
  rw [hdrop]
  have hld : leadsWith (ustr "://") (58 :: 47 :: 47 :: rest) = true := by
    rw [hsep]
    exact leadsWith_append_self [58, 47, 47] rest
  rw [if_neg (by rw [hld]; decide)]
  simp only [List.drop_succ_cons, List.drop_zero]

theorem parseUrl_roundtrip (u : Url)
    (hs : u.scheme ≠ []) (hsc : ∀ c ∈ u.scheme, isSchemeChar c = true)
    (hh : u.host ≠ []) (hhc : ∀ c ∈ u.host, isHostChar c = true)
    (hp : ∃ r, u.path = 47 :: r) (hpc : ∀ c ∈ u.path, isPathChar c = true)
    (hqc : ∀ s, u.query = some s → ∀ c ∈ s, isQueryChar c = true)
    (hf : u.fragment = none) :
    parseUrl (urlToString u) = some u := by
  obtain ⟨sch, hst, prt, pth, qry, frg⟩ := u
  simp only [] at hs hsc hh hhc hp hpc hqc hf
  subst hf
  obtain ⟨pr, hpr⟩ := hp
  subst hpr
  have hsep : ustr "://" = [58, 47, 47] := by decide
  have hpath_tw0 : (47 :: pr).takeWhile isPathChar = 47 :: pr := by
    have h1 := takeWhile_append_eq isPathChar (47 :: pr) [] hpc (Or.inl rfl)
    rwa [List.append_nil] at h1
  cases prt with
  | none =>
    cases qry with
    | none =>
      have hform : urlToString ⟨sch, hst, none, 47 :: pr, none, none⟩ =
          sch ++ (58 :: 47 :: 47 :: (hst ++ (47 :: pr))) := by
        simp [urlToString, hsep, List.append_assoc]
      rw [hform, parseUrl_append sch _ hs hsc]
      have htwh : (hst ++ (47 :: pr)).takeWhile isHostChar = hst :=
        takeWhile_append_eq _ _ _ hhc (Or.inr ⟨47, pr, rfl, by decide⟩)
      rw [htwh, if_neg hh, drop_append_len]
      rw [parseAfterHost_cons47, parsePath_cons47, hpath_tw0,
        List.drop_length, parseQF_nil]
    | some q =>
      have hform : urlToString ⟨sch, hst, none, 47 :: pr, some q, none⟩ =
          sch ++ (58 :: 47 :: 47 :: (hst ++ ((47 :: pr) ++ (63 :: q)))) := by
        simp [urlToString, hsep, List.append_assoc]
      rw [hform, parseUrl_append sch _ hs hsc]
      have htwh : (hst ++ ((47 :: pr) ++ (63 :: q))).takeWhile isHostChar =
          hst :=
        takeWhile_append_eq _ _ _ hhc (Or.inr ⟨47, _, rfl, by decide⟩)
      rw [htwh, if_neg hh, drop_append_len]
      rw [List.cons_append, parseAfterHost_cons47, parsePath_cons47,
        ← List.cons_append]
      have htwp : ((47 :: pr) ++ (63 :: q)).takeWhile isPathChar = 47 :: pr :=
        takeWhile_append_eq _ _ _ hpc (Or.inr ⟨63, q, rfl, by decide⟩)
      rw [htwp, drop_append_len]
      exact parseQF_query_only sch hst none (47 :: pr) q (hqc q rfl)
  | some p =>
    cases qry with
    | none =>
      have hform : urlToString ⟨sch, hst, some p, 47 :: pr, none, none⟩ =
          sch ++ (58 :: 47 :: 47 ::
            (hst ++ (58 :: (natToDigits p ++ (47 :: pr))))) := by
        simp [urlToString, hsep, List.append_assoc]
      rw [hform, parseUrl_append sch _ hs hsc]
      have htwh : (hst ++ (58 :: (natToDigits p ++ (47 :: pr)))).takeWhile
          isHostChar = hst :=
        takeWhile_append_eq _ _ _ hhc (Or.inr ⟨58, _, rfl, by decide⟩)
      rw [htwh, if_neg hh, drop_append_len, parseAfterHost_cons58]
      have htwd : (natToDigits p ++ (47 :: pr)).takeWhile charIsAsciiDigit =
          natToDigits p :=
        takeWhile_append_eq _ _ _ (natToDigits_digits p)
          (Or.inr ⟨47, pr, rfl, by decide⟩)
      rw [htwd, if_neg (natToDigits_ne_nil p), natOfDigits_natToDigits,
        drop_append_len]
      rw [parsePath_cons47, hpath_tw0, List.drop_length, parseQF_nil]
    | some q =>
      have hform : urlToString ⟨sch, hst, some p, 47 :: pr, some q, none⟩ =
          sch ++ (58 :: 47 :: 47 ::
            (hst ++ (58 :: (natToDigits p ++ ((47 :: pr) ++ (63 :: q)))))) := by
        simp [urlToString, hsep, List.append_assoc]
      rw [hform, parseUrl_append sch _ hs hsc]
      have htwh : (hst ++ (58 :: (natToDigits p ++ ((47 :: pr) ++ (63 :: q))))
          ).takeWhile isHostChar = hst :=
        takeWhile_append_eq _ _ _ hhc (Or.inr ⟨58, _, rfl, by decide⟩)
      rw [htwh, if_neg hh, drop_append_len, parseAfterHost_cons58]
      have htwd : (natToDigits p ++ ((47 :: pr) ++ (63 :: q))).takeWhile
          charIsAsciiDigit = natToDigits p :=
        takeWhile_append_eq _ _ _ (natToDigits_digits p)
          (Or.inr ⟨47, _, rfl, by decide⟩)
      rw [htwd, if_neg (natToDigits_ne_nil p), natOfDigits_natToDigits,
        drop_append_len]
      rw [List.cons_append, parsePath_cons47, ← List.cons_append]
      have htwp : ((47 :: pr) ++ (63 :: q)).takeWhile isPathChar = 47 :: pr :=
        takeWhile_append_eq _ _ _ hpc (Or.inr ⟨63, q, rfl, by decide⟩)
      rw [htwp, drop_append_len]
      exact parseQF_query_only sch hst (some p) (47 :: pr) q (hqc q rfl)

theorem normalizePort_idem (scheme : List Nat) (port : Option Nat) :
    normalizePort scheme (normalizePort scheme port) =
      normalizePort scheme port := by
  cases port with
  | none => rfl
  | some p =>
    by_cases h :
        (scheme = ustr "http" ∧ p = 80) ∨ (scheme = ustr "https" ∧ p = 443)
    · have h1 : normalizePort scheme (some p) = none := by
        show (if (scheme = ustr "http" ∧ p = 80) ∨
            (scheme = ustr "https" ∧ p = 443) then none else some p) = none
        rw [if_pos h]
      rw [h1]
      rfl
    · have h1 : normalizePort scheme (some p) = some p := by
        show (if (scheme = ustr "http" ∧ p = 80) ∨
            (scheme = ustr "https" ∧ p = 443) then none else some p) = some p
        rw [if_neg h]
      rw [h1]
      exact h1

theorem normalizeQuery_chars (q : Option (List Nat))
    (hb : ∀ s, q = some s → ∀ b ∈ s, b < 256) :
    ∀ s2, normalizeQuery q = some s2 → ∀ c ∈ s2, isQueryChar c = true := by
  intro s2 hs2 c hc
  cases q with
  | none =>
    rw [normalizeQuery_none] at hs2
    cases hs2
  | some s =>
    unfold normalizeQuery at hs2
    simp only [] at hs2
    split at hs2
    · cases hs2
    · injection hs2 with hs2
      subst hs2
      apply encodePairs_queryChars _ _ c hc
      intro kv hkv
      have h2 : kv ∈ (queryPairs s).filter (fun kv => !isTrackingParam kv.1) :=
        (mem_sortPairs kv _).mp hkv
      exact queryPairs_bytes s (hb s rfl) kv (List.mem_of_mem_filter h2)

/-- **C10.** The URL normalizer is idempotent on its own output: whenever
`normalize_article_url` succeeds, feeding the produced string back through
it succeeds and returns the same string. -/
theorem c10_url_normalization_idempotent (l s : List Nat)
    (h : normalizeArticleUrl l = some s) :
    normalizeArticleUrl s = some s := by
  unfold normalizeArticleUrl at h
  cases hu : parseUrl l with
  | none =>
    rw [hu] at h
    cases h
  | some u =>
    rw [hu] at h
    simp only [Option.map_some'] at h
    injection h with h
    subst h
    obtain ⟨h1, h2, h3, h4, ⟨r, h5⟩, h6, h7⟩ := parseUrl_wf l u hu
    have hqb : ∀ s0, u.query = some s0 → ∀ b ∈ s0, b < 256 := by
      intro s0 hs0 b hb2
      have h8 := h7 s0 hs0 b hb2
      simp only [isQueryChar, Bool.and_eq_true] at h8
      exact of_decide_eq_true h8.2
    have hvpath : ∃ r2, (normalizeUrlStruct u).path = 47 :: r2 :=
      normalizePath_head u.path r h5
    have hvpathc : ∀ c ∈ (normalizeUrlStruct u).path, isPathChar c = true := by
      intro c hc
      rcases normalizePath_mem u.path c hc with h9 | h9
      · subst h9
        rfl
      · exact h6 c h9
    have hvq : ∀ s0, (normalizeUrlStruct u).query = some s0 →
        ∀ c ∈ s0, isQueryChar c = true :=
      normalizeQuery_chars u.query hqb
    have hstab : normalizeUrlStruct (normalizeUrlStruct u) =
        normalizeUrlStruct u := by
      unfold normalizeUrlStruct
      simp only []
      rw [normalizePort_idem, normalizePath_idem,
        normalizeQuery_stable u.query hqb]
    unfold normalizeArticleUrl
    rw [parseUrl_roundtrip (normalizeUrlStruct u) h1 h2 h3 h4 hvpath hvpathc
      hvq rfl]
    simp only [Option.map_some']
    rw [hstab]

/-- Witness for C10 at the spec's scenario-1 URL: the tracking parameter,
default port, trailing slash and fragment are stripped, the remaining
query pairs are sorted, and a second pass returns the same string. -/
theorem c10_witness :
    normalizeArticleUrl
        (ustr "https://a.example.com:443/x/?utm_source=x&b=2&a=1#frag") =
      some (ustr "https://a.example.com/x?a=1&b=2") ∧
    normalizeArticleUrl (ustr "https://a.example.com/x?a=1&b=2") =
      some (ustr "https://a.example.com/x?a=1&b=2") :=
  ⟨by decide,
   c10_url_normalization_idempotent
     (ustr "https://a.example.com:443/x/?utm_source=x&b=2&a=1#frag")
     (ustr "https://a.example.com/x?a=1&b=2") (by decide)⟩

end NewsAgg
